import Mathlib

/-!
Verification of the `skeletor` mesh-skeletonization library
(`src/skeletonizer/skeleton.py`) against its natural-language specification.

The development shallowly embeds the Python source:

* the edge-collapse loop of `skeletonize` (lines 224-332) as a step function
  on an explicit state (`CState`, `collapseStep`, `collapseRun`);
* the initial cost model of `skeletonize` (lines 84-222) as real-valued
  functions (`edge_len`, `shape_cost`, `sample_cost`, `F_T_init`);
* `make_swc` (lines 440-516) as `make_swc` over association lists of
  `(node_id, parent_id)` integer pairs;
* `edges_to_graph` (lines 519-582) as `edges_to_graph`, with the networkx
  collaborators (cycle detection, connected components, BFS predecessors)
  modelled by a cycle-finding oracle parameter and an explicit BFS;
* `_get_radius_kkn` (lines 615-633) as `get_radius_kkn`.

Machine floating point is modelled by `ℝ`; numpy integer arrays by lists of
`ℕ`/`ℤ`.
-/

namespace Skeletor

/-! ## Collapse Engine state (skeletonize, lines 224-332)

The loop state consists of the (relabelled-in-place) edge array, the live
face-edge triples, and the two boolean flag arrays `keep` / `is_collapsed`,
modelled as the sets of flagged edge indices.  The cost arrays `F_T`,
`Q_array` and `verts_lengths` are *not* part of the state: line 231
(`F_T[:] = 0`, an active line in the source) overwrites every cost with 0 at
the top of each iteration before any cost is read, so after the zeroing and
the two `np.inf` writes of lines 239-240 the array `F_T` is the function
`fun i => if flagged i then ∞ else 0`; the updates of lines 303-332 are dead
with respect to the loop's control flow and its outputs (`keep`, `edges`,
`face_edges`).  The initial cost computation (lines 84-222) is embedded
separately below for the cost-selection claim. -/

structure CState where
  edges : List (Nat × Nat)
  faces : List (Nat × Nat × Nat)
  keepSet : Finset Nat
  collapsedSet : Finset Nat

/-- Edge index `i` is flagged `kept` or `collapsed` (its `F_T` entry is +∞
by lines 239-240). -/
def flaggedB (s : CState) (i : Nat) : Bool :=
  decide (i ∈ s.keepSet) || decide (i ∈ s.collapsedSet)

/-- Line 243, `collapse_ix = np.argmin(F_T)` after line 231 has zeroed
`F_T` and lines 239-240 have set flagged entries to +∞: the first unflagged
index, or 0 when every entry is +∞ (numpy's `argmin` of a constant array). -/
def selectIx (s : CState) : Nat :=
  ((List.range s.edges.length).find? (fun i => !flaggedB s i)).getD 0

/-- Line 245: the vertices `u, v` of the winning edge. -/
def uvOf (s : CState) : Nat × Nat := s.edges.getD (selectIx s) (0, 0)

/-- Lines 248-256: indices of edges whose two endpoints both lie in
`{u, v}`, excluding self-loops (`uu`/`vv` edges). -/
def clpsEdges (s : CState) : List Nat :=
  let u := (uvOf s).1
  let v := (uvOf s).2
  (List.range s.edges.length).filter (fun i =>
    let e := s.edges.getD i (0, 0)
    ((e.1 == u) || (e.1 == v)) && ((e.2 == u) || (e.2 == v)) && !(e.1 == e.2))

/-- Lines 264-267: a face-edge triple contains one of the collapsing edges. -/
def faceHit (clps : List Nat) (f : Nat × Nat × Nat) : Bool :=
  clps.contains f.1 || clps.contains f.2.1 || clps.contains f.2.2

/-- `.reshape(n, 2)` of line 285: consecutive pairing of the surviving
("adjacent") entries of the collapsed faces. -/
def chunkPairs : List Nat → List (Nat × Nat)
  | a :: b :: rest => (a, b) :: chunkPairs rest
  | _ => []

/-- One substitution of the loop of lines 296-298: occurrences of the losing
edge id are rewritten to the winning one inside a face-edge triple. -/
def relabelTriple (wl : Nat × Nat) (f : Nat × Nat × Nat) : Nat × Nat × Nat :=
  let rep := fun e => if e = wl.2 then wl.1 else e
  (rep f.1, rep f.2.1, rep f.2.2)

/-- Lines 296-298: sequentially, for each `(win, loose)` pair, relabel the
remaining face-edge triples and mark the losing edge collapsed. -/
def relabelFaces : List (Nat × Nat) → List (Nat × Nat × Nat) → Finset Nat →
    List (Nat × Nat × Nat) × Finset Nat
  | [], fs, c => (fs, c)
  | wl :: rest, fs, c => relabelFaces rest (fs.map (relabelTriple wl)) (c ∪ {wl.2})

/-- Lines 276-301, the face-removing branch of a loop iteration: the hit
faces are removed, the collapsing edges are marked collapsed, the opposite
("adjacent") edges of each removed face are merged pairwise, and vertex `u`
is rewritten to `v` in the edge array. -/
def collapseMerge (s : CState) : CState :=
  { edges := s.edges.map
      (fun e => ((if e.1 = (uvOf s).1 then (uvOf s).2 else e.1),
                 (if e.2 = (uvOf s).1 then (uvOf s).2 else e.2))),
    faces := (relabelFaces
      (chunkPairs ((s.faces.filter (faceHit (clpsEdges s))).flatMap
        (fun f => ([f.1, f.2.1, f.2.2].filter (fun e => !(clpsEdges s).contains e)))))
      (s.faces.filter (fun f => !faceHit (clpsEdges s) f))
      (s.collapsedSet ∪ (clpsEdges s).toFinset)).1,
    keepSet := s.keepSet,
    collapsedSet := (relabelFaces
      (chunkPairs ((s.faces.filter (faceHit (clpsEdges s))).flatMap
        (fun f => ([f.1, f.2.1, f.2.2].filter (fun e => !(clpsEdges s).contains e)))))
      (s.faces.filter (fun f => !faceHit (clpsEdges s) f))
      (s.collapsedSet ∪ (clpsEdges s).toFinset)).2 }

/-- One iteration of the `while face_edges.size` loop (lines 229-332).
If no remaining face contains a collapsing edge, the collapsing edges are
marked `keep` (lines 270-273); otherwise the iteration takes the
face-removing branch `collapseMerge`.  The cost updates of lines 303-332
are dead (see the comment on `CState`) and carry no control-flow state. -/
def collapseStep (s : CState) : CState :=
  if s.faces.all (fun f => !faceHit (clpsEdges s) f) then
    { s with keepSet := s.keepSet ∪ (clpsEdges s).toFinset }
  else
    collapseMerge s

/-- The collapse loop with explicit fuel: iterate `collapseStep` while
face-edge triples remain. -/
def collapseRun : Nat → CState → CState
  | 0, s => s
  | fuel + 1, s => if s.faces.isEmpty then s else collapseRun fuel (collapseStep s)

/-- Number of loop iterations executed before the face-edge triple set
becomes empty (within the given fuel). -/
def collapseIters : Nat → CState → Nat
  | 0, _ => 0
  | fuel + 1, s => if s.faces.isEmpty then 0 else 1 + collapseIters fuel (collapseStep s)

/-- Number of edge slots not yet flagged `kept` or `collapsed`. -/
def unflaggedCard (s : CState) : Nat :=
  ((Finset.range s.edges.length).filter
    (fun i => i ∉ s.keepSet ∪ s.collapsedSet)).card

/-- Progress measure of the loop: outstanding face-edge triples plus
unflagged edge slots. -/
def cMeasure (s : CState) : Nat := s.faces.length + unflaggedCard s

/-! Basic lemmas about the step. -/

theorem relabelFaces_length (ps : List (Nat × Nat)) :
    ∀ (fs : List (Nat × Nat × Nat)) (c : Finset Nat),
      ((relabelFaces ps fs c).1).length = fs.length := by
  induction ps with
  | nil => intro fs c; simp [relabelFaces]
  | cons wl rest ih =>
      intro fs c
      simp [relabelFaces, ih]

theorem relabelFaces_collapsed_mono (ps : List (Nat × Nat)) :
    ∀ (fs : List (Nat × Nat × Nat)) (c : Finset Nat),
      c ⊆ (relabelFaces ps fs c).2 := by
  induction ps with
  | nil => intro fs c; simp [relabelFaces]
  | cons wl rest ih =>
      intro fs c
      exact (Finset.subset_union_left).trans (ih _ _)

theorem selectIx_unflagged (s : CState)
    (h : ∃ j ∈ Finset.range s.edges.length, j ∉ s.keepSet ∪ s.collapsedSet) :
    selectIx s < s.edges.length ∧ flaggedB s (selectIx s) = false := by
  obtain ⟨j, hjr, hjf⟩ := h
  have hjr' : j ∈ List.range s.edges.length := by
    simpa [List.mem_range] using hjr
  have hpred : (fun i => !flaggedB s i) j = true := by
    simp only [Bool.not_eq_true']
    simp only [flaggedB, Bool.or_eq_false_iff, decide_eq_false_iff_not]
    constructor
    · intro hk; exact hjf (Finset.mem_union.mpr (Or.inl hk))
    · intro hc; exact hjf (Finset.mem_union.mpr (Or.inr hc))
  rcases hfind : (List.range s.edges.length).find? (fun i => !flaggedB s i) with _ | ⟨i⟩
  · exact absurd hpred (by simpa using (List.find?_eq_none.mp hfind) j hjr')
  · have hmem := List.mem_of_find?_eq_some hfind
    have hp := List.find?_some hfind
    constructor
    · simpa [selectIx, hfind] using List.mem_range.mp hmem
    · simpa [selectIx, hfind] using hp

theorem collapseMerge_faces_length (s : CState) :
    (collapseMerge s).faces.length
      = (s.faces.filter (fun f => !faceHit (clpsEdges s) f)).length := by
  simp [collapseMerge, relabelFaces_length]

theorem collapseMerge_keep (s : CState) : (collapseMerge s).keepSet = s.keepSet := rfl

theorem collapseMerge_edges_length (s : CState) :
    (collapseMerge s).edges.length = s.edges.length := by
  simp [collapseMerge]

theorem collapseMerge_coll_mono (s : CState) :
    s.collapsedSet ⊆ (collapseMerge s).collapsedSet :=
  (Finset.subset_union_left).trans (relabelFaces_collapsed_mono _ _ _)

theorem length_filter_lt_of_mem {α : Type} {l : List α} {p : α → Bool} {x : α}
    (hx : x ∈ l) (hpx : p x = false) : (l.filter p).length < l.length := by
  induction l with
  | nil => cases hx
  | cons a rest ih =>
      rcases List.mem_cons.mp hx with rfl | hx'
      · simp only [List.filter_cons, hpx, List.length_cons]
        exact Nat.lt_succ_of_le (List.length_filter_le _ _)
      · by_cases hpa : p a
        · simpa [List.filter_cons, hpa] using Nat.succ_lt_succ (ih hx')
        · simp only [List.filter_cons, Bool.not_eq_true] at hpa ⊢
          simp only [hpa, List.length_cons]
          exact Nat.lt_succ_of_lt (ih hx')

/-- The selected edge index belongs to the collapsing-edge set, provided an
unflagged slot exists and no unflagged slot holds a self-loop (true of every
state reached from a mesh, whose unique-edge list has no self-loops). -/
theorem mem_clpsEdges_selectIx (s : CState)
    (h2 : ∃ j ∈ Finset.range s.edges.length, j ∉ s.keepSet ∪ s.collapsedSet)
    (h3 : ∀ j ∈ Finset.range s.edges.length, j ∉ s.keepSet ∪ s.collapsedSet →
      (s.edges.getD j (0, 0)).1 ≠ (s.edges.getD j (0, 0)).2) :
    selectIx s ∈ clpsEdges s := by
  obtain ⟨hlt, hfl⟩ := selectIx_unflagged s h2
  have hnm : selectIx s ∉ s.keepSet ∪ s.collapsedSet := by
    simp only [flaggedB, Bool.or_eq_false_iff, decide_eq_false_iff_not] at hfl
    intro hmem
    rcases Finset.mem_union.mp hmem with h | h
    · exact hfl.1 h
    · exact hfl.2 h
  have hne := h3 (selectIx s) (Finset.mem_range.mpr hlt) hnm
  unfold clpsEdges
  refine List.mem_filter.mpr ⟨List.mem_range.mpr hlt, ?_⟩
  simp only [uvOf, Bool.and_eq_true, Bool.or_eq_true, beq_iff_eq, Bool.not_eq_true',
    beq_eq_false_iff_ne, ne_eq]
  exact ⟨⟨Or.inl trivial, Or.inr trivial⟩, hne⟩

/-- Claim C2 (amended): at every iteration taken while face-edge triples
remain, the face-edge count never increases, and — as long as some edge slot
is still unflagged (and, as for all mesh-derived states, no unflagged slot
is a self-loop) — the quantity `#outstanding faces + #unflagged edges`
strictly decreases.  Since that quantity starts at `initial face count +
initial edge count`, the loop terminates within that many iterations; the
initial face count alone does *not* bound the iteration count (see
`collapseIters_exceeds_face_count`). -/
theorem collapseStep_progress (s : CState)
    (h1 : s.faces ≠ [])
    (h2 : ∃ j ∈ Finset.range s.edges.length, j ∉ s.keepSet ∪ s.collapsedSet)
    (h3 : ∀ j ∈ Finset.range s.edges.length, j ∉ s.keepSet ∪ s.collapsedSet →
      (s.edges.getD j (0, 0)).1 ≠ (s.edges.getD j (0, 0)).2) :
    (collapseStep s).faces.length ≤ s.faces.length ∧
      cMeasure (collapseStep s) < cMeasure s := by
  have hix := mem_clpsEdges_selectIx s h2 h3
  obtain ⟨hlt, hfl⟩ := selectIx_unflagged s h2
  have hnm : selectIx s ∉ s.keepSet ∪ s.collapsedSet := by
    simp only [flaggedB, Bool.or_eq_false_iff, decide_eq_false_iff_not] at hfl
    intro hmem
    rcases Finset.mem_union.mp hmem with h | h
    · exact hfl.1 h
    · exact hfl.2 h
  by_cases hall : s.faces.all (fun f => !faceHit (clpsEdges s) f)
  · have hstep : collapseStep s = { s with keepSet := s.keepSet ∪ (clpsEdges s).toFinset } := by
      simp only [collapseStep, hall, if_true]
    rw [hstep]
    refine ⟨le_refl _, ?_⟩
    have hcard : unflaggedCard { s with keepSet := s.keepSet ∪ (clpsEdges s).toFinset }
        < unflaggedCard s := by
      apply Finset.card_lt_card
      constructor
      · intro i hi
        rcases Finset.mem_filter.mp hi with ⟨hir, hin⟩
        refine Finset.mem_filter.mpr ⟨hir, ?_⟩
        intro hmem
        apply hin
        rcases Finset.mem_union.mp hmem with h | h
        · exact Finset.mem_union.mpr (Or.inl (Finset.mem_union.mpr (Or.inl h)))
        · exact Finset.mem_union.mpr (Or.inr h)
      · intro hsub
        have h1' : selectIx s ∈ (Finset.range s.edges.length).filter
            (fun i => i ∉ s.keepSet ∪ s.collapsedSet) :=
          Finset.mem_filter.mpr ⟨Finset.mem_range.mpr hlt, hnm⟩
        have h2' := hsub h1'
        rcases Finset.mem_filter.mp h2' with ⟨_, hin⟩
        exact hin (Finset.mem_union.mpr (Or.inl (Finset.mem_union.mpr
          (Or.inr (List.mem_toFinset.mpr hix)))))
    simpa [cMeasure] using hcard
  · have hex : ∃ f ∈ s.faces, faceHit (clpsEdges s) f = true := by
      by_contra hno
      push_neg at hno
      apply hall
      rw [List.all_eq_true]
      intro f hf
      simp only [Bool.not_eq_true']
      exact Bool.eq_false_iff.mpr (hno f hf)
    obtain ⟨f0, hf0, hhit⟩ := hex
    have hflt : (s.faces.filter (fun f => !faceHit (clpsEdges s) f)).length < s.faces.length := by
      apply length_filter_lt_of_mem hf0
      simp [hhit]
    have hstep : collapseStep s = collapseMerge s := by
      simp only [collapseStep, hall, if_false, Bool.false_eq_true]
    rw [hstep]
    have hfles : (collapseMerge s).faces.length < s.faces.length := by
      rw [collapseMerge_faces_length]; exact hflt
    refine ⟨le_of_lt hfles, ?_⟩
    have hcard : unflaggedCard (collapseMerge s) ≤ unflaggedCard s := by
      apply Finset.card_le_card
      intro i hi
      rcases Finset.mem_filter.mp hi with ⟨hir, hin⟩
      rw [Finset.mem_range, collapseMerge_edges_length] at hir
      refine Finset.mem_filter.mpr ⟨Finset.mem_range.mpr hir, ?_⟩
      intro hmem
      apply hin
      rcases Finset.mem_union.mp hmem with h | h
      · exact Finset.mem_union.mpr (Or.inl (by rwa [collapseMerge_keep]))
      · exact Finset.mem_union.mpr (Or.inr (collapseMerge_coll_mono s h))
    unfold cMeasure
    omega

/-- Loop state for a single triangle: three edges `(0,1) (1,2) (0,2)` and
one face-edge triple, nothing flagged. -/
def triState : CState := ⟨[(0, 1), (1, 2), (0, 2)], [(0, 1, 2)], ∅, ∅⟩

/-- Loop state for two disjoint triangles: six edges and two face-edge
triples, nothing flagged. -/
def twoTriState : CState :=
  ⟨[(0, 1), (1, 2), (0, 2), (3, 4), (4, 5), (3, 5)], [(0, 1, 2), (3, 4, 5)], ∅, ∅⟩

/-- Witness for `collapseStep_progress` at the single-triangle state. -/
theorem collapseStep_progress_witness :
    (collapseStep triState).faces.length ≤ triState.faces.length ∧
      cMeasure (collapseStep triState) < cMeasure triState :=
  collapseStep_progress triState (by decide) (by decide) (by decide)

/-- Claim C2, counterexample to the stated bound: on the two-triangle input
the loop empties the face-edge set only after 3 iterations, exceeding the
initial face count 2 (iteration 2 retires the surviving edge of the first
triangle as `kept` without removing any face). -/
theorem collapseIters_exceeds_face_count :
    twoTriState.faces.length = 2 ∧ collapseIters 10 twoTriState = 3 ∧
      (collapseRun 10 twoTriState).faces = [] ∧
      twoTriState.faces.length < collapseIters 10 twoTriState := by
  decide

section SortMachinery

variable {α : Type} {β : Type}

def insertLe (le : α → α → Bool) (a : α) : List α → List α
  | [] => [a]
  | b :: rest => if le a b then a :: b :: rest else b :: insertLe le a rest

/-- Stable insertion sort (Python's `sorted`, numpy's ascending sorts): an
element is inserted in front of the first already-placed element it compares
`le` to; the already-placed elements all come later in the input, so ties
keep input order. -/
def sortBy (le : α → α → Bool) : List α → List α
  | [] => []
  | a :: rest => insertLe le a (sortBy le rest)

theorem mem_insertLe (le : α → α → Bool) (a x : α) :
    ∀ l : List α, x ∈ insertLe le a l ↔ x = a ∨ x ∈ l := by
  intro l
  induction l with
  | nil => simp [insertLe]
  | cons b rest ih =>
      by_cases h : le a b
      · simp [insertLe, h]
      · simp only [insertLe, h, if_false, List.mem_cons, ih, Bool.false_eq_true]
        tauto

theorem mem_sortBy (le : α → α → Bool) (x : α) :
    ∀ l : List α, x ∈ sortBy le l ↔ x ∈ l := by
  intro l
  induction l with
  | nil => simp [sortBy]
  | cons a rest ih => simp [sortBy, mem_insertLe, ih]

theorem sortBy_perm (le : α → α → Bool) : ∀ l : List α, (sortBy le l).Perm l := by
  intro l
  induction l with
  | nil => simp [sortBy]
  | cons a rest ih =>
      have hi : ∀ (m : List α), (insertLe le a m).Perm (a :: m) := by
        intro m
        induction m with
        | nil => simp [insertLe]
        | cons b r ihm =>
            by_cases h : le a b
            · simp [insertLe, h]
            · simp only [insertLe, h, if_false, Bool.false_eq_true]
              exact (ihm.cons b).trans (List.Perm.swap a b r)
      exact (hi (sortBy le rest)).trans (ih.cons a)

theorem sortBy_head_min [LinearOrder β] (k : α → β) :
    ∀ (l : List α) (h : α) (t : List α),
      sortBy (fun x y => decide (k x ≤ k y)) l = h :: t → ∀ x ∈ l, k h ≤ k x := by
  intro l
  induction l with
  | nil => intro h t he; cases he
  | cons a rest ih =>
      intro h t he x hx
      rcases hrest : sortBy (fun x y => decide (k x ≤ k y)) rest with _ | ⟨h', t'⟩
      · rw [sortBy, hrest] at he
        simp only [insertLe] at he
        obtain ⟨rfl, _⟩ := List.cons.inj he
        rcases List.mem_cons.mp hx with rfl | hx'
        · exact le_refl _
        · exact absurd ((mem_sortBy _ x rest).mpr hx') (by rw [hrest]; simp)
      · rw [sortBy, hrest] at he
        by_cases hle : k a ≤ k h'
        · simp only [insertLe, decide_eq_true_eq, hle, if_true] at he
          obtain ⟨rfl, _⟩ := List.cons.inj he
          rcases List.mem_cons.mp hx with rfl | hx'
          · exact le_refl _
          · exact le_trans hle (ih h' t' hrest x hx')
        · simp only [insertLe, decide_eq_true_eq, hle, if_false] at he
          obtain ⟨rfl, _⟩ := List.cons.inj he
          rcases List.mem_cons.mp hx with rfl | hx'
          · exact le_of_lt (lt_of_not_le hle)
          · exact ih h' t' hrest x hx'

end SortMachinery

/-! ## Table Serializer (make_swc, lines 440-516)

Tables are modelled by their `(node_id, parent_id)` integer columns: the
`x`/`y`/`z` columns are copied per-row from the vertex array and `radius` is
the constant 1 (line 493); neither interacts with the id logic the claims
are about.  `np.unique`'s/`sort_values`' sorts are modelled with a stable
insertion sort on a strict key (Python's `sorted` is stable; for
`sort_values` pandas' default quicksort leaves tie order unspecified, and no
theorem below depends on tie order).  `dict(zip(...))`-based reindexing maps
a missing key to NaN in the source; the model returns a junk index, a case
no claim exercises. -/

/-- Lexicographic strict order on table rows (the sort of `np.unique(edges,
axis=0)`). -/
def lexLeRow (a b : ℤ × ℤ) : Bool :=
  decide (a.1 < b.1) || (decide (a.1 = b.1) && decide (a.2 ≤ b.2))

/-- `np.unique(edges, axis=0)` of line 475. -/
def uniqRows (l : List (ℤ × ℤ)) : List (ℤ × ℤ) := (sortBy lexLeRow l).dedup

def posOf : List ℤ → ℤ → Nat
  | [], _ => 0
  | a :: rest, x => if a = x then 0 else posOf rest x + 1

def missingParents (rows : List (ℤ × ℤ)) : List ℤ :=
  sortBy (fun a b => decide (a ≤ b))
    (((rows.map Prod.snd).dedup).filter (fun p => !(rows.map Prod.fst).contains p))

def makeSwcRows (edges : List (ℤ × ℤ)) (reindex : Bool) : List (ℤ × ℤ) :=
  let rows0 := uniqRows edges
  let miss := missingParents rows0
  let rows1 := if miss.any (fun m => m != 0)
    then rows0 ++ miss.map (fun m => (m, (-1 : ℤ))) else rows0
  if reindex then
    let sorted := sortBy (fun a b => decide (a.2 ≤ b.2)) rows1
    let nodeCol := sorted.map Prod.fst
    let newId := fun (x : ℤ) => if x = -1 then (-1 : ℤ) else (posOf nodeCol x : ℤ)
    sorted.map (fun r => (newId r.1, newId r.2))
  else rows1

def make_swc (edges : List (ℤ × ℤ)) (reindex : Bool) (validate : Bool) :
    Except String (List (ℤ × ℤ)) :=
  let rows := makeSwcRows edges reindex
  if validate ∧ ¬ (rows.map Prod.fst).Nodup then
    Except.error "Nodes with multiple parents found."
  else Except.ok rows


theorem mem_uniqRows (x : ℤ × ℤ) (l : List (ℤ × ℤ)) : x ∈ uniqRows l ↔ x ∈ l := by
  simp [uniqRows, List.mem_dedup, mem_sortBy]

theorem pair_eq_of_keysNodup {l : List (ℤ × ℤ)} {x y : ℤ × ℤ}
    (hnd : (l.map Prod.fst).Nodup) (hx : x ∈ l) (hy : y ∈ l) (hk : x.1 = y.1) :
    x = y := by
  induction l with
  | nil => cases hx
  | cons a rest ih =>
      rw [List.map_cons, List.nodup_cons] at hnd
      rcases List.mem_cons.mp hx with rfl | hx'
      · rcases List.mem_cons.mp hy with rfl | hy'
        · rfl
        · exact absurd (List.mem_map.mpr ⟨y, hy', hk.symm⟩) hnd.1
      · rcases List.mem_cons.mp hy with rfl | hy'
        · exact absurd (List.mem_map.mpr ⟨x, hx', hk⟩) hnd.1
        · exact ih hnd.2 hx' hy'

/-- Claim C7: an edge array with one node listed under two distinct parents
makes `make_swc` fail validation when `validate=True` (line 513 sees a
duplicated `node_id`), and return a table when `validate=False`. -/
theorem make_swc_validate_duplicate (edges : List (ℤ × ℤ)) (n p q : ℤ)
    (hpq : p ≠ q) (hp : (n, p) ∈ edges) (hq : (n, q) ∈ edges) :
    (∃ msg, make_swc edges false true = Except.error msg) ∧
      (∃ rows, make_swc edges false false = Except.ok rows) := by
  have hnd : ¬ ((makeSwcRows edges false).map Prod.fst).Nodup := by
    intro hnd
    have h0 : ¬ ((uniqRows edges).map Prod.fst).Nodup := by
      intro h0
      have hx : (n, p) ∈ uniqRows edges := (mem_uniqRows _ _).mpr hp
      have hy : (n, q) ∈ uniqRows edges := (mem_uniqRows _ _).mpr hq
      exact hpq (congrArg Prod.snd (pair_eq_of_keysNodup h0 hx hy rfl))
    apply h0
    simp only [makeSwcRows, if_false, Bool.false_eq_true] at hnd
    by_cases hc : (missingParents (uniqRows edges)).any (fun m => m != 0)
    · rw [if_pos hc, List.map_append] at hnd
      exact hnd.of_append_left
    · rwa [if_neg hc] at hnd
  constructor
  · refine ⟨"Nodes with multiple parents found.", ?_⟩
    simp only [make_swc]
    rw [if_pos ⟨trivial, hnd⟩]
  · refine ⟨makeSwcRows edges false, ?_⟩
    simp only [make_swc]
    rw [if_neg]
    rintro ⟨hfalse, -⟩
    exact Bool.false_ne_true hfalse

/-- Witness for `make_swc_validate_duplicate`: node 1 with parents 5 and 6. -/
theorem make_swc_validate_duplicate_witness :
    (∃ msg, make_swc [((1 : ℤ), 5), ((1 : ℤ), 6)] false true = Except.error msg) ∧
      (∃ rows, make_swc [((1 : ℤ), 5), ((1 : ℤ), 6)] false false = Except.ok rows) :=
  make_swc_validate_duplicate _ 1 5 6 (by decide) (by decide) (by decide)

/-- Claim C4 (code bug): with the single edge `(child 1, parent 0)` the only
missing parent id is 0, `any(miss)` is falsy (numpy element truthiness), and
no root row `(0, -1)` is appended: the output references parent 0 although no
row carries node id 0. -/
theorem make_swc_missing_root_zero_not_added :
    ∃ rows, make_swc [((1 : ℤ), (0 : ℤ))] false true = Except.ok rows ∧
      (1, 0) ∈ rows ∧ ∀ r ∈ rows, r.1 ≠ 0 :=
  ⟨[(1, 0)], rfl, by decide, by decide⟩

/-- Claim C5 (code bug): for the valid rooted forest `3 → 1 → 2` the
reindexed table is `[(0,-1), (1,2), (2,0)]`: the row with (new) node id 1
has (new) parent id 2, so the parent's row index is *not* less than the
child's — sorting by raw `parent_id` is not a topological order. -/
theorem make_swc_reindex_child_before_parent :
    ∃ rows, make_swc [((3 : ℤ), 1), ((1 : ℤ), 2)] true true = Except.ok rows ∧
      (1, 2) ∈ rows ∧ ¬ ((2 : ℤ) < 1) :=
  ⟨[(0, -1), (1, 2), (2, 0)], rfl, by decide, by decide⟩

/-! ## Tree Finalizer (edges_to_graph, lines 519-582)

The networkx collaborators are modelled as follows: the undirected
`nx.Graph` built on lines 528-533 is the self-loop-free, undirected-dedup
edge list (`gEdges`; line 526 of the source only re-removes self-loops — a
row can only equal its own reversal when both entries coincide);
`nx.find_cycle` is an oracle parameter `find` returning an oriented cycle
edge list; `nx.connected_components` together with `nx.predecessor` and the
root choice `list(SG.nodes)[0]` (= the smallest node id, since the graph's
nodes are inserted in `np.unique` sorted order) are realized by the
sequential breadth-first orientation `orientGo`: scan the sorted node list,
and each not-yet-visited node becomes the root of a BFS that assigns each
newly discovered node its first discovered predecessor as parent.  The
`drop_disconnected` step removes degree-0 nodes; since the output graph's
nodes are exactly the endpoints of the parent edges, it is the identity on
the edge set.  `weight` is `False` in the pipeline call (line 339). -/

/-- Neighbors of `x` in the undirected edge list (networkx adjacency). -/
def nbrs (E : List (Nat × Nat)) (x : Nat) : List Nat :=
  E.flatMap (fun e => if e.1 = x then [e.2] else if e.2 = x then [e.1] else [])

/-- Node list of the graph: `np.unique(edges.flatten())` (line 530). -/
def nodesOf (E : List (Nat × Nat)) : List Nat :=
  sortBy (fun a b => decide (a ≤ b)) ((E.flatMap (fun e => [e.1, e.2])).dedup)

/-- Undirected-duplicate removal with an accumulator of edges already taken
(the deduplication `nx.Graph` performs on `add_edges_from`). -/
def undirDedupAux (seen : List (Nat × Nat)) : List (Nat × Nat) → List (Nat × Nat)
  | [] => []
  | e :: rest =>
      if seen.any (fun s => (s.1 == e.1 && s.2 == e.2) || (s.1 == e.2 && s.2 == e.1))
      then undirDedupAux seen rest
      else e :: undirDedupAux (e :: seen) rest

/-- Lines 523-533: drop self-loops, then build the undirected simple graph. -/
def gEdges (E : List (Nat × Nat)) : List (Nat × Nat) :=
  undirDedupAux [] (E.filter (fun e => !(e.1 == e.2)))

/-- `G.degree[x]` of the undirected graph. -/
def degree (E : List (Nat × Nat)) (x : Nat) : Nat := (nbrs E x).length

/-- Line 547 and line 550: sort the cycle's oriented edges by the degree of
their first node (Python's `sorted` is stable) and take the first. -/
def removedOf (E : List (Nat × Nat)) (cyc : List (Nat × Nat)) : Nat × Nat :=
  (sortBy (fun x y => decide (degree E x.1 ≤ degree E y.1)) cyc).headD (0, 0)

/-- `G.remove_edge(a, b)` on an undirected edge list. -/
def removeUndirEdge (E : List (Nat × Nat)) (a b : Nat) : List (Nat × Nat) :=
  E.filter (fun e => !((e.1 == a && e.2 == b) || (e.1 == b && e.2 == a)))

/-- One pass of the cycle-removal loop body (lines 546-550). -/
def breakCycle (E : List (Nat × Nat)) (cyc : List (Nat × Nat)) : List (Nat × Nat) :=
  removeUndirEdge E (removedOf E cyc).1 (removedOf E cyc).2

/-- The `while True: find_cycle / remove_edge` loop of lines 537-550, with
the cycle detector as an oracle and fuel bounding the number of removals. -/
def removeCycles (find : List (Nat × Nat) → Option (List (Nat × Nat))) :
    Nat → List (Nat × Nat) → List (Nat × Nat)
  | 0, E => E
  | fuel + 1, E =>
      match find E with
      | none => E
      | some cyc => removeCycles find fuel (breakCycle E cyc)

/-- First-per-key deduplication with a seen-keys accumulator (BFS discovery:
`nx.predecessor` keeps the first discovered predecessor as `v[0]`). -/
def dedupKeysAux (seen : List Nat) : List (Nat × Nat) → List (Nat × Nat)
  | [] => []
  | q :: rest =>
      if seen.contains q.1 then dedupKeysAux seen rest
      else q :: dedupKeysAux (q.1 :: seen) rest

/-- One BFS round: each unvisited neighbor of the frontier is paired with
its first discovered frontier predecessor. -/
def bfsStepPairs (E : List (Nat × Nat)) (frontier visited : List Nat) :
    List (Nat × Nat) :=
  dedupKeysAux [] ((frontier.flatMap (fun f => (nbrs E f).map (fun m => (m, f)))).filter
    (fun q => !(visited.contains q.1)))

/-- BFS from a frontier: returns the `(child, parent)` pairs in discovery
order together with the final visited list (visited grows by appending). -/
def bfsFrom (E : List (Nat × Nat)) : Nat → List Nat → List Nat →
    List (Nat × Nat) × List Nat
  | 0, _, visited => ([], visited)
  | fuel + 1, frontier, visited =>
      let news := bfsStepPairs E frontier visited
      if news.isEmpty then ([], visited)
      else
        let r := bfsFrom E fuel (news.map Prod.fst) (visited ++ news.map Prod.fst)
        (news ++ r.1, r.2)

/-- Lines 553-563: scan the sorted node list; each not-yet-visited node is
the root (`list(SG.nodes)[0]`) of its connected component and a BFS assigns
parents within it. -/
def orientGo (E : List (Nat × Nat)) : List Nat → List Nat →
    List (Nat × Nat) × List Nat
  | [], vis => ([], vis)
  | n :: rest, vis =>
      if vis.contains n then orientGo E rest vis
      else
        let b := bfsFrom E (nodesOf E).length [n] (vis ++ [n])
        let o := orientGo E rest b.2
        (b.1 ++ o.1, o.2)

/-- The oriented `(child, parent)` edge set of the final `nx.DiGraph`. -/
def orientForest (E : List (Nat × Nat)) : List (Nat × Nat) :=
  (orientGo E (nodesOf E) []).1

/-- All nodes discovered during orientation, in discovery order. -/
def finalVis (E : List (Nat × Nat)) : List Nat :=
  (orientGo E (nodesOf E) []).2

/-- `edges_to_graph(edges, vertices, fix_tree=True, drop_disconnected=True,
weight=False)` (lines 519-582), as the oriented edge list of the returned
directed graph. -/
def edges_to_graph (find : List (Nat × Nat) → Option (List (Nat × Nat)))
    (E : List (Nat × Nat)) : List (Nat × Nat) :=
  orientForest (removeCycles find (gEdges E).length (gEdges E))

/-- Parent pointer of `n` in an oriented `(child, parent)` edge list. -/
def lookupParent (P : List (Nat × Nat)) (n : Nat) : Option Nat :=
  (P.find? (fun pr => pr.1 == n)).map Prod.snd

/-- Iterated parent pointers. -/
def parentIter (P : List (Nat × Nat)) : Nat → Nat → Option Nat
  | 0, n => some n
  | k + 1, n =>
      match lookupParent P n with
      | none => none
      | some p => parentIter P k p

/-- Undirected adjacency of an edge list. -/
def adjRel (E : List (Nat × Nat)) (x y : Nat) : Prop := (x, y) ∈ E ∨ (y, x) ∈ E

/-- Connectivity (membership in the same component). -/
def Reaches (E : List (Nat × Nat)) : Nat → Nat → Prop :=
  Relation.ReflTransGen (adjRel E)

theorem mem_nbrs_iff (E : List (Nat × Nat)) (x y : Nat) :
    y ∈ nbrs E x ↔ adjRel E x y := by
  unfold nbrs adjRel
  rw [List.mem_flatMap]
  constructor
  · rintro ⟨e, he, hy⟩
    by_cases h1 : e.1 = x
    · simp only [h1, if_true, List.mem_singleton] at hy
      subst hy
      left
      have : e = (x, e.2) := by rw [← h1]
      rwa [← this]
    · by_cases h2 : e.2 = x
      · simp only [h1, if_false, h2, if_true, List.mem_singleton] at hy
        subst hy
        right
        have : e = (e.1, x) := by rw [← h2]
        rwa [← this]
      · simp [h1, h2] at hy
  · rintro (h | h)
    · exact ⟨(x, y), h, by simp⟩
    · refine ⟨(y, x), h, ?_⟩
      by_cases hyx : y = x
      · simp [hyx]
      · simp [hyx]

theorem removeUndirEdge_length_lt (E : List (Nat × Nat)) (a b : Nat)
    (h : (a, b) ∈ E ∨ (b, a) ∈ E) :
    (removeUndirEdge E a b).length < E.length := by
  unfold removeUndirEdge
  rcases h with h | h
  · exact length_filter_lt_of_mem h (by simp)
  · exact length_filter_lt_of_mem h (by simp)

/-- Claim C9: when a cycle is detected, the removed edge is one minimizing,
over the cycle's edges, the degree of the lower-degree endpoint (ties are
resolved deterministically by the stable sort over the cycle's traversal
order), and — for a sound cycle detector, i.e. one whose reported cycles
consist of graph edges — the removal loop reaches a cycle-free graph (the
detector reports `none`) within `|E|` removals. -/
theorem cycle_edge_removal (E : List (Nat × Nat))
    (find : List (Nat × Nat) → Option (List (Nat × Nat)))
    (cyc : List (Nat × Nat))
    (hne : cyc ≠ [])
    (hclosed : ∀ e ∈ cyc, ∃ e' ∈ cyc, e'.1 = e.2)
    (hval : ∀ E' cyc', find E' = some cyc' →
      (removedOf E' cyc') ∈ E' ∨ ((removedOf E' cyc').2, (removedOf E' cyc').1) ∈ E') :
    removedOf E cyc ∈ cyc ∧
      (∀ e ∈ cyc, min (degree E (removedOf E cyc).1) (degree E (removedOf E cyc).2)
        ≤ min (degree E e.1) (degree E e.2)) ∧
      find (removeCycles find E.length E) = none := by
  -- the sorted cycle is nonempty
  rcases hs : sortBy (fun x y => decide (degree E x.1 ≤ degree E y.1)) cyc with _ | ⟨h, t⟩
  · exfalso
    apply hne
    have := sortBy_perm (fun x y => decide (degree E x.1 ≤ degree E y.1)) cyc
    rw [hs] at this
    exact this.symm.eq_nil
  · have hrem : removedOf E cyc = h := by
      simp [removedOf, hs]
    have hhead := sortBy_head_min (fun x => degree E x.1) cyc h t hs
    have hmem : removedOf E cyc ∈ cyc := by
      rw [hrem]
      exact (mem_sortBy _ h cyc).mp (hs ▸ List.mem_cons_self h t)
    refine ⟨hmem, ?_, ?_⟩
    · intro e he
      obtain ⟨e', he', he2⟩ := hclosed e he
      rw [hrem]
      refine le_min ?_ ?_
      · exact le_trans (min_le_left _ _) (hhead e he)
      · exact le_trans (min_le_left _ _) (he2 ▸ hhead e' he')
    · -- termination of the removal loop
      clear hs hrem hhead hmem hne hclosed
      have main : ∀ (fuel : Nat) (E' : List (Nat × Nat)), E'.length ≤ fuel →
          find (removeCycles find fuel E') = none := by
        intro fuel
        induction fuel with
        | zero =>
            intro E' hlen
            have : E' = [] := List.length_eq_zero.mp (Nat.le_zero.mp hlen)
            subst this
            simp only [removeCycles]
            rcases hf : find [] with _ | cyc'
            · rfl
            · rcases hval [] cyc' hf with h | h <;> cases h
        | succ fuel ih =>
            intro E' hlen
            simp only [removeCycles]
            rcases hf : find E' with _ | cyc'
            · exact hf
            · apply ih
              have hlt : (breakCycle E' cyc').length < E'.length := by
                apply removeUndirEdge_length_lt
                exact hval E' cyc' hf
              omega
      exact main E.length E (le_refl _)

/-- A concrete sound cycle detector for the witness graph: a triangle with a
tail; it reports the triangle (in traversal orientation) once. -/
def findTriOracle (es : List (Nat × Nat)) : Option (List (Nat × Nat)) :=
  if es = [(0, 1), (1, 2), (0, 2), (2, 3)] then some [(0, 1), (1, 2), (2, 0)] else none

/-- Witness for `cycle_edge_removal` on the triangle-with-tail graph. -/
theorem cycle_edge_removal_witness :
    removedOf [(0, 1), (1, 2), (0, 2), (2, 3)] [(0, 1), (1, 2), (2, 0)]
        ∈ [(0, 1), (1, 2), (2, 0)] ∧
      (∀ e ∈ [(0, 1), (1, 2), (2, 0)],
        min (degree [(0, 1), (1, 2), (0, 2), (2, 3)]
              (removedOf [(0, 1), (1, 2), (0, 2), (2, 3)] [(0, 1), (1, 2), (2, 0)]).1)
            (degree [(0, 1), (1, 2), (0, 2), (2, 3)]
              (removedOf [(0, 1), (1, 2), (0, 2), (2, 3)] [(0, 1), (1, 2), (2, 0)]).2)
          ≤ min (degree [(0, 1), (1, 2), (0, 2), (2, 3)] e.1)
              (degree [(0, 1), (1, 2), (0, 2), (2, 3)] e.2)) ∧
      findTriOracle (removeCycles findTriOracle
        [(0, 1), (1, 2), (0, 2), (2, 3)].length [(0, 1), (1, 2), (0, 2), (2, 3)]) = none :=
  cycle_edge_removal [(0, 1), (1, 2), (0, 2), (2, 3)] findTriOracle
    [(0, 1), (1, 2), (2, 0)] (by decide) (by decide)
    (by
      intro E' cyc' h
      by_cases hE : E' = [(0, 1), (1, 2), (0, 2), (2, 3)]
      · subst hE
        rw [findTriOracle, if_pos rfl] at h
        cases h
        decide
      · simp [findTriOracle, hE] at h)

theorem dedupKeysAux_sub : ∀ (l : List (Nat × Nat)) (seen : List Nat) (x : Nat × Nat),
    x ∈ dedupKeysAux seen l → x ∈ l := by
  intro l
  induction l with
  | nil => intro seen x hx; cases hx
  | cons q rest ih =>
      intro seen x hx
      by_cases hq : seen.contains q.1
      · rw [dedupKeysAux, if_pos hq] at hx
        exact List.mem_cons_of_mem _ (ih _ _ hx)
      · rw [dedupKeysAux, if_neg hq] at hx
        rcases List.mem_cons.mp hx with rfl | hx'
        · exact List.mem_cons_self _ _
        · exact List.mem_cons_of_mem _ (ih _ _ hx')

theorem dedupKeysAux_keys_nodup_fresh :
    ∀ (l : List (Nat × Nat)) (seen : List Nat),
      ((dedupKeysAux seen l).map Prod.fst).Nodup ∧
        ∀ m ∈ (dedupKeysAux seen l).map Prod.fst, m ∉ seen := by
  intro l
  induction l with
  | nil => intro seen; simp [dedupKeysAux]
  | cons q rest ih =>
      intro seen
      by_cases hq : seen.contains q.1
      · rw [dedupKeysAux, if_pos hq]
        exact ih seen
      · rw [dedupKeysAux, if_neg hq]
        obtain ⟨hnd, hfresh⟩ := ih (q.1 :: seen)
        rw [List.map_cons, List.nodup_cons]
        refine ⟨⟨?_, hnd⟩, ?_⟩
        · intro hmem
          exact (hfresh _ hmem) (List.mem_cons_self _ _)
        · intro m hm
          rcases List.mem_cons.mp hm with rfl | hm'
          · intro hc
            exact hq (List.elem_eq_true_of_mem hc)
          · intro hc
            exact (hfresh m hm') (List.mem_cons_of_mem _ hc)

theorem dedupKeysAux_keys_complete :
    ∀ (l : List (Nat × Nat)) (seen : List Nat) (m p : Nat),
      (m, p) ∈ l → m ∉ seen → m ∈ (dedupKeysAux seen l).map Prod.fst := by
  intro l
  induction l with
  | nil => intro seen m p hm _; cases hm
  | cons q rest ih =>
      intro seen m p hm hms
      by_cases hq : seen.contains q.1
      · rw [dedupKeysAux, if_pos hq]
        rcases List.mem_cons.mp hm with rfl | hm'
        · exact absurd (List.mem_of_elem_eq_true hq) hms
        · exact ih _ m p hm' hms
      · rw [dedupKeysAux, if_neg hq]
        rw [List.map_cons]
        by_cases hmq : m = q.1
        · exact hmq ▸ List.mem_cons_self _ _
        · rcases List.mem_cons.mp hm with rfl | hm'
          · simp at hmq
          · refine List.mem_cons_of_mem _ (ih _ m p hm' ?_)
            intro hc
            rcases List.mem_cons.mp hc with h | h
            · exact hmq h
            · exact hms h

theorem bfsStepPairs_mem {E : List (Nat × Nat)} {fr vis : List Nat} {q : Nat × Nat}
    (hq : q ∈ bfsStepPairs E fr vis) :
    q.1 ∉ vis ∧ q.2 ∈ fr ∧ q.1 ∈ nbrs E q.2 := by
  have h1 := dedupKeysAux_sub _ _ _ hq
  rw [List.mem_filter] at h1
  obtain ⟨hcand, hfil⟩ := h1
  rw [List.mem_flatMap] at hcand
  obtain ⟨f, hf, hqf⟩ := hcand
  rw [List.mem_map] at hqf
  obtain ⟨m, hm, rfl⟩ := hqf
  refine ⟨?_, hf, hm⟩
  intro hc
  rw [Bool.not_eq_true'] at hfil
  simp only [List.contains_eq_any_beq] at hfil
  have : vis.any (fun x => (m, f).1 == x) = true := by
    rw [List.any_eq_true]
    exact ⟨m, hc, by simp⟩
  rw [this] at hfil
  cases hfil

theorem bfsStepPairs_keys_nodup (E : List (Nat × Nat)) (fr vis : List Nat) :
    ((bfsStepPairs E fr vis).map Prod.fst).Nodup :=
  (dedupKeysAux_keys_nodup_fresh _ _).1

theorem bfsStepPairs_complete {E : List (Nat × Nat)} {fr vis : List Nat} {x y : Nat}
    (hx : x ∈ fr) (hy : y ∈ nbrs E x) (hyv : y ∉ vis) :
    y ∈ (bfsStepPairs E fr vis).map Prod.fst := by
  apply dedupKeysAux_keys_complete _ _ y x _ (by simp)
  rw [List.mem_filter]
  constructor
  · rw [List.mem_flatMap]
    exact ⟨x, hx, List.mem_map.mpr ⟨y, hy, rfl⟩⟩
  · simp only [Bool.not_eq_true']
    rw [Bool.eq_false_iff]
    intro hc
    exact hyv (List.mem_of_elem_eq_true hc)

theorem bfsFrom_vis (E : List (Nat × Nat)) :
    ∀ (fuel : Nat) (fr vis : List Nat),
      (bfsFrom E fuel fr vis).2 = vis ++ (bfsFrom E fuel fr vis).1.map Prod.fst := by
  intro fuel
  induction fuel with
  | zero => intro fr vis; simp [bfsFrom]
  | succ fuel ih =>
      intro fr vis
      by_cases hem : (bfsStepPairs E fr vis).isEmpty
      · simp [bfsFrom, hem]
      · simp only [bfsFrom, hem, if_false, Bool.false_eq_true]
        rw [ih]
        simp [List.append_assoc]

theorem bfsFrom_adj (E : List (Nat × Nat)) :
    ∀ (fuel : Nat) (fr vis : List Nat) (pr : Nat × Nat),
      pr ∈ (bfsFrom E fuel fr vis).1 → pr.1 ∈ nbrs E pr.2 := by
  intro fuel
  induction fuel with
  | zero => intro fr vis pr hpr; cases hpr
  | succ fuel ih =>
      intro fr vis pr hpr
      by_cases hem : (bfsStepPairs E fr vis).isEmpty
      · simp [bfsFrom, hem] at hpr
      · simp only [bfsFrom, hem, if_false, Bool.false_eq_true] at hpr
        rcases List.mem_append.mp hpr with h | h
        · exact (bfsStepPairs_mem h).2.2
        · exact ih _ _ pr h

theorem bfsFrom_keys_nodup_fresh (E : List (Nat × Nat)) :
    ∀ (fuel : Nat) (fr vis : List Nat),
      ((bfsFrom E fuel fr vis).1.map Prod.fst).Nodup ∧
        ∀ m ∈ (bfsFrom E fuel fr vis).1.map Prod.fst, m ∉ vis := by
  intro fuel
  induction fuel with
  | zero => intro fr vis; simp [bfsFrom]
  | succ fuel ih =>
      intro fr vis
      by_cases hem : (bfsStepPairs E fr vis).isEmpty
      · simp [bfsFrom, hem]
      · simp only [bfsFrom, hem, if_false, Bool.false_eq_true]
        obtain ⟨hnd, hfresh⟩ := ih (((bfsStepPairs E fr vis)).map Prod.fst)
          (vis ++ ((bfsStepPairs E fr vis)).map Prod.fst)
        rw [List.map_append, List.nodup_append]
        constructor
        · refine ⟨bfsStepPairs_keys_nodup E fr vis, hnd, ?_⟩
          intro m hm hm2
          exact (hfresh m hm2) (List.mem_append.mpr (Or.inr hm))
        · intro m hm
          rcases List.mem_append.mp hm with h | h
          · rcases List.mem_map.mp h with ⟨q, hq, rfl⟩
            exact (bfsStepPairs_mem hq).1
          · intro hc
            exact (hfresh m h) (List.mem_append.mpr (Or.inl hc))

theorem mem_nodesOf {E : List (Nat × Nat)} {a : Nat} :
    a ∈ nodesOf E ↔ ∃ e ∈ E, a = e.1 ∨ a = e.2 := by
  unfold nodesOf
  rw [mem_sortBy, List.mem_dedup, List.mem_flatMap]
  constructor
  · rintro ⟨e, he, hm⟩
    rcases List.mem_cons.mp hm with h | h
    · exact ⟨e, he, Or.inl h⟩
    · rw [List.mem_singleton] at h
      exact ⟨e, he, Or.inr h⟩
  · rintro ⟨e, he, h | h⟩
    · exact ⟨e, he, by simp [h]⟩
    · exact ⟨e, he, by simp [h]⟩

theorem nbrs_sub_nodesOf {E : List (Nat × Nat)} {x y : Nat}
    (hy : y ∈ nbrs E x) : y ∈ nodesOf E := by
  rcases (mem_nbrs_iff E x y).mp hy with h | h
  · exact mem_nodesOf.mpr ⟨(x, y), h, Or.inr rfl⟩
  · exact mem_nodesOf.mpr ⟨(y, x), h, Or.inl rfl⟩

theorem bfsFrom_keys_sub_nodes (E : List (Nat × Nat)) (fuel : Nat) (fr vis : List Nat) :
    ∀ m ∈ (bfsFrom E fuel fr vis).1.map Prod.fst, m ∈ nodesOf E := by
  intro m hm
  rcases List.mem_map.mp hm with ⟨q, hq, rfl⟩
  exact nbrs_sub_nodesOf (bfsFrom_adj E fuel fr vis q hq)

theorem bfsFrom_parent_mid (E : List (Nat × Nat)) :
    ∀ (fuel : Nat) (fr vis : List Nat), (∀ f ∈ fr, f ∈ vis) →
      ∀ pr ∈ (bfsFrom E fuel fr vis).1,
        ∃ mid rest2, (bfsFrom E fuel fr vis).2 = mid ++ rest2 ∧ pr.2 ∈ mid ∧ pr.1 ∉ mid := by
  intro fuel
  induction fuel with
  | zero => intro fr vis _ pr hpr; cases hpr
  | succ fuel ih =>
      intro fr vis hfr pr hpr
      by_cases hem : (bfsStepPairs E fr vis).isEmpty
      · simp [bfsFrom, hem] at hpr
      · simp only [bfsFrom, hem, if_false, Bool.false_eq_true] at hpr ⊢
        rcases List.mem_append.mp hpr with h | h
        · obtain ⟨hnv, hf, _⟩ := bfsStepPairs_mem h
          refine ⟨vis, (bfsStepPairs E fr vis).map Prod.fst ++
            (bfsFrom E fuel ((bfsStepPairs E fr vis).map Prod.fst)
              (vis ++ (bfsStepPairs E fr vis).map Prod.fst)).1.map Prod.fst,
            ?_, hfr _ hf, hnv⟩
          rw [bfsFrom_vis, ← List.append_assoc]
        · have hfr' : ∀ f ∈ (bfsStepPairs E fr vis).map Prod.fst,
              f ∈ vis ++ (bfsStepPairs E fr vis).map Prod.fst := by
            intro f hf
            exact List.mem_append.mpr (Or.inr hf)
          exact ih _ _ hfr' pr h

theorem bfsFrom_closed (E : List (Nat × Nat)) :
    ∀ (fuel : Nat) (fr vis : List Nat),
      vis.Nodup → (∀ x ∈ vis, x ∈ nodesOf E) → (∀ f ∈ fr, f ∈ vis) →
      (∀ x ∈ vis, x ∈ fr ∨ ∀ y ∈ nbrs E x, y ∈ vis) →
      (nodesOf E).length < fuel + vis.length →
      ∀ x ∈ (bfsFrom E fuel fr vis).2, ∀ y ∈ nbrs E x, y ∈ (bfsFrom E fuel fr vis).2 := by
  intro fuel
  induction fuel with
  | zero =>
      intro fr vis hnd hsub _ _ hcap
      exfalso
      have hle : vis.length ≤ (nodesOf E).length :=
        (List.subperm_of_subset hnd (fun a ha => hsub a ha)).length_le
      omega
  | succ fuel ih =>
      intro fr vis hnd hsub hfr hcl hcap
      by_cases hem : (bfsStepPairs E fr vis).isEmpty
      · simp only [bfsFrom, hem, if_true]
        intro x hx y hy
        rcases hcl x hx with hxf | hxc
        · by_contra hyv
          have : y ∈ (bfsStepPairs E fr vis).map Prod.fst :=
            bfsStepPairs_complete hxf hy hyv
          rw [List.isEmpty_iff.mp hem] at this
          cases this
        · exact hxc y hy
      · simp only [bfsFrom, hem, if_false, Bool.false_eq_true]
        set ks := (bfsStepPairs E fr vis).map Prod.fst with hks
        have hkfresh : ∀ m ∈ ks, m ∉ vis := by
          intro m hm
          rcases List.mem_map.mp hm with ⟨q, hq, rfl⟩
          exact (bfsStepPairs_mem hq).1
        apply ih
        · rw [List.nodup_append]
          refine ⟨hnd, bfsStepPairs_keys_nodup E fr vis, ?_⟩
          intro m hm hm2
          exact (hkfresh m hm2) hm
        · intro x hx
          rcases List.mem_append.mp hx with h | h
          · exact hsub x h
          · rcases List.mem_map.mp h with ⟨q, hq, rfl⟩
            exact nbrs_sub_nodesOf (bfsStepPairs_mem hq).2.2
        · intro f hf
          exact List.mem_append.mpr (Or.inr hf)
        · intro x hx
          rcases List.mem_append.mp hx with h | h
          · right
            intro y hy
            rcases hcl x h with hxf | hxc
            · by_cases hyv : y ∈ vis
              · exact List.mem_append.mpr (Or.inl hyv)
              · exact List.mem_append.mpr (Or.inr (bfsStepPairs_complete hxf hy hyv))
            · exact List.mem_append.mpr (Or.inl (hxc y hy))
          · left
            exact h
        · have hlen : 1 ≤ ks.length := by
            rcases hk : ks with _ | ⟨a, t⟩
            · exfalso
              apply hem
              rw [List.isEmpty_iff]
              have := congrArg List.length hk
              rw [List.length_map] at this
              exact List.length_eq_zero.mp this
            · simp
          rw [List.length_append]
          omega

theorem orientGo_ext (E : List (Nat × Nat)) :
    ∀ (ns vis : List Nat), ∃ d, (orientGo E ns vis).2 = vis ++ d := by
  intro ns
  induction ns with
  | nil => intro vis; exact ⟨[], by simp [orientGo]⟩
  | cons n rest ih =>
      intro vis
      by_cases hn : vis.contains n
      · simp only [orientGo, hn, if_true]
        exact ih vis
      · simp only [orientGo, hn, if_false, Bool.false_eq_true]
        obtain ⟨d, hd⟩ := ih (bfsFrom E (nodesOf E).length [n] (vis ++ [n])).2
        rw [hd, bfsFrom_vis]
        exact ⟨[n] ++ (bfsFrom E (nodesOf E).length [n] (vis ++ [n])).1.map Prod.fst ++ d,
          by simp [List.append_assoc]⟩

theorem orientGo_mono (E : List (Nat × Nat)) (ns vis : List Nat) :
    ∀ x ∈ vis, x ∈ (orientGo E ns vis).2 := by
  obtain ⟨d, hd⟩ := orientGo_ext E ns vis
  intro x hx
  rw [hd]
  exact List.mem_append.mpr (Or.inl hx)

theorem orientGo_keys_nodup_fresh (E : List (Nat × Nat)) :
    ∀ (ns vis : List Nat),
      ((orientGo E ns vis).1.map Prod.fst).Nodup ∧
        ∀ m ∈ (orientGo E ns vis).1.map Prod.fst, m ∉ vis ∧ m ∈ (orientGo E ns vis).2 := by
  intro ns
  induction ns with
  | nil => intro vis; simp [orientGo]
  | cons n rest ih =>
      intro vis
      by_cases hn : vis.contains n
      · simp only [orientGo, hn, if_true]
        exact ih vis
      · simp only [orientGo, hn, if_false, Bool.false_eq_true]
        set b := bfsFrom E (nodesOf E).length [n] (vis ++ [n]) with hbdef
        obtain ⟨hnd, hrest⟩ := ih b.2
        obtain ⟨hbnd, hbfresh⟩ := bfsFrom_keys_nodup_fresh E (nodesOf E).length [n] (vis ++ [n])
        obtain ⟨d, hd⟩ := orientGo_ext E rest b.2
        rw [List.map_append, List.nodup_append]
        refine ⟨⟨hbnd, hnd, ?_⟩, ?_⟩
        · intro m hm hm2
          have := (hrest m hm2).1
          rw [bfsFrom_vis] at this
          exact this (List.mem_append.mpr (Or.inr hm))
        · intro m hm
          rcases List.mem_append.mp hm with h | h
          · have hfresh := hbfresh m h
            constructor
            · intro hc
              exact hfresh (List.mem_append.mpr (Or.inl hc))
            · rw [hd, bfsFrom_vis]
              exact List.mem_append.mpr (Or.inl (List.mem_append.mpr (Or.inr h)))
          · obtain ⟨hfresh, hin⟩ := hrest m h
            constructor
            · intro hc
              apply hfresh
              rw [bfsFrom_vis]
              exact List.mem_append.mpr (Or.inl (List.mem_append.mpr (Or.inl hc)))
            · exact hin

theorem orientGo_parent_mid (E : List (Nat × Nat)) :
    ∀ (ns vis : List Nat), ∀ pr ∈ (orientGo E ns vis).1,
      ∃ mid rest2, (orientGo E ns vis).2 = mid ++ rest2 ∧ pr.2 ∈ mid ∧ pr.1 ∉ mid := by
  intro ns
  induction ns with
  | nil => intro vis pr hpr; cases hpr
  | cons n rest ih =>
      intro vis pr hpr
      by_cases hn : vis.contains n
      · simp only [orientGo, hn, if_true] at hpr ⊢
        exact ih vis pr hpr
      · simp only [orientGo, hn, if_false, Bool.false_eq_true] at hpr ⊢
        set b := bfsFrom E (nodesOf E).length [n] (vis ++ [n]) with hbdef
        rcases List.mem_append.mp hpr with h | h
        · obtain ⟨mid, r2, hsp, hp2, hp1⟩ :=
            bfsFrom_parent_mid E (nodesOf E).length [n] (vis ++ [n])
              (by intro f hf; rcases List.mem_singleton.mp hf with rfl
                  exact List.mem_append.mpr (Or.inr (List.mem_singleton.mpr rfl)))
              pr h
          obtain ⟨d, hd⟩ := orientGo_ext E rest b.2
          refine ⟨mid, r2 ++ d, ?_, hp2, hp1⟩
          rw [hd, hbdef, hsp, List.append_assoc]
        · exact ih b.2 pr h

theorem orientGo_adj (E : List (Nat × Nat)) :
    ∀ (ns vis : List Nat), ∀ pr ∈ (orientGo E ns vis).1, pr.1 ∈ nbrs E pr.2 := by
  intro ns
  induction ns with
  | nil => intro vis pr hpr; cases hpr
  | cons n rest ih =>
      intro vis pr hpr
      by_cases hn : vis.contains n
      · simp only [orientGo, hn, if_true] at hpr
        exact ih vis pr hpr
      · simp only [orientGo, hn, if_false, Bool.false_eq_true] at hpr
        rcases List.mem_append.mp hpr with h | h
        · exact bfsFrom_adj E _ _ _ pr h
        · exact ih _ pr h

theorem orientGo_cover (E : List (Nat × Nat)) :
    ∀ (ns vis : List Nat), ∀ x ∈ ns, x ∈ (orientGo E ns vis).2 := by
  intro ns
  induction ns with
  | nil => intro vis x hx; cases hx
  | cons n rest ih =>
      intro vis x hx
      by_cases hn : vis.contains n
      · simp only [orientGo, hn, if_true]
        rcases List.mem_cons.mp hx with rfl | hx'
        · exact orientGo_mono E rest vis x (List.mem_of_elem_eq_true hn)
        · exact ih vis x hx'
      · simp only [orientGo, hn, if_false, Bool.false_eq_true]
        rcases List.mem_cons.mp hx with rfl | hx'
        · apply orientGo_mono
          rw [bfsFrom_vis]
          exact List.mem_append.mpr (Or.inl (List.mem_append.mpr (Or.inr (by simp))))
        · exact ih _ x hx'

theorem orientGo_closed (E : List (Nat × Nat)) :
    ∀ (ns vis : List Nat),
      vis.Nodup → (∀ x ∈ vis, x ∈ nodesOf E) →
      (∀ x ∈ vis, ∀ y ∈ nbrs E x, y ∈ vis) →
      (∀ x ∈ ns, x ∈ nodesOf E) →
      ((orientGo E ns vis).2.Nodup ∧ (∀ x ∈ (orientGo E ns vis).2, x ∈ nodesOf E)) ∧
        ∀ x ∈ (orientGo E ns vis).2, ∀ y ∈ nbrs E x, y ∈ (orientGo E ns vis).2 := by
  intro ns
  induction ns with
  | nil =>
      intro vis hnd hsub hcl _
      exact ⟨⟨hnd, hsub⟩, hcl⟩
  | cons n rest ih =>
      intro vis hnd hsub hcl hns
      by_cases hn : vis.contains n
      · simp only [orientGo, hn, if_true]
        exact ih vis hnd hsub hcl (fun x hx => hns x (List.mem_cons_of_mem _ hx))
      · simp only [orientGo, hn, if_false, Bool.false_eq_true]
        set b := bfsFrom E (nodesOf E).length [n] (vis ++ [n]) with hbdef
        have hnvis : n ∉ vis := fun hc => hn (List.elem_eq_true_of_mem hc)
        have hvn_nd : (vis ++ [n]).Nodup := by
          rw [List.nodup_append]
          exact ⟨hnd, List.nodup_singleton n, by
            intro a ha hb
            rw [List.mem_singleton] at hb
            subst hb
            exact hnvis ha⟩
        have hvn_sub : ∀ x ∈ vis ++ [n], x ∈ nodesOf E := by
          intro x hx
          rcases List.mem_append.mp hx with h | h
          · exact hsub x h
          · rw [List.mem_singleton] at h
            subst h
            exact hns x (List.mem_cons_self _ _)
        have hb_closed : ∀ x ∈ b.2, ∀ y ∈ nbrs E x, y ∈ b.2 := by
          apply bfsFrom_closed E (nodesOf E).length [n] (vis ++ [n]) hvn_nd hvn_sub
          · intro f hf
            rw [List.mem_singleton] at hf
            subst hf
            exact List.mem_append.mpr (Or.inr (by simp))
          · intro x hx
            rcases List.mem_append.mp hx with h | h
            · exact Or.inr (fun y hy => List.mem_append.mpr (Or.inl (hcl x h y hy)))
            · exact Or.inl h
          · rw [List.length_append, List.length_singleton]
            omega
        have hb_nd : b.2.Nodup := by
          rw [hbdef, bfsFrom_vis, List.nodup_append]
          obtain ⟨hknd, hkfresh⟩ := bfsFrom_keys_nodup_fresh E (nodesOf E).length [n] (vis ++ [n])
          exact ⟨hvn_nd, hknd, fun a ha hb => (hkfresh a hb) ha⟩
        have hb_sub : ∀ x ∈ b.2, x ∈ nodesOf E := by
          intro x hx
          rw [hbdef, bfsFrom_vis] at hx
          rcases List.mem_append.mp hx with h | h
          · exact hvn_sub x h
          · exact bfsFrom_keys_sub_nodes E _ _ _ x h
        exact ih b.2 hb_nd hb_sub hb_closed (fun x hx => hns x (List.mem_cons_of_mem _ hx))

/-- Position of an element in a list (length when absent). -/
def posN : List Nat → Nat → Nat
  | [], _ => 0
  | a :: rest, x => if a = x then 0 else posN rest x + 1

theorem posN_append_lt {mid : List Nat} {x : Nat} (hx : x ∈ mid) :
    ∀ rest, posN (mid ++ rest) x < mid.length := by
  induction mid with
  | nil => cases hx
  | cons a m ih =>
      intro rest
      by_cases ha : a = x
      · simp [posN, ha]
      · rcases List.mem_cons.mp hx with rfl | hx'
        · exact absurd rfl ha
        · simp only [List.cons_append, posN, ha, if_false, List.length_cons]
          exact Nat.succ_lt_succ (ih hx' rest)

theorem posN_append_ge {mid : List Nat} {x : Nat} (hx : x ∉ mid) :
    ∀ rest, mid.length ≤ posN (mid ++ rest) x := by
  induction mid with
  | nil => intro rest; exact Nat.zero_le _
  | cons a m ih =>
      intro rest
      have hax : a ≠ x := fun h => hx (h ▸ List.mem_cons_self _ _)
      have hxm : x ∉ m := fun h => hx (List.mem_cons_of_mem _ h)
      simp only [List.cons_append, posN, hax, if_false, List.length_cons]
      exact Nat.succ_le_succ (ih hxm rest)

theorem reaches_closed {E : List (Nat × Nat)} {V : List Nat}
    (hcl : ∀ x ∈ V, ∀ y ∈ nbrs E x, y ∈ V) {x y : Nat}
    (hx : x ∈ V) (hxy : Reaches E x y) : y ∈ V := by
  induction hxy with
  | refl => exact hx
  | tail _ hadj ih =>
      rename_i b c _
      exact hcl b ih c ((mem_nbrs_iff E b c).mpr hadj)

theorem reaches_symm {E : List (Nat × Nat)} {x y : Nat}
    (h : Reaches E x y) : Reaches E y x := by
  induction h with
  | refl => exact Relation.ReflTransGen.refl
  | tail _ hadj ih =>
      rename_i b c _
      refine Relation.ReflTransGen.trans (Relation.ReflTransGen.single ?_) ih
      rcases hadj with h | h
      · exact Or.inr h
      · exact Or.inl h

theorem bfsBlock_inv (E : List (Nat × Nat)) (n : Nat) (vis : List Nat)
    (hnd : vis.Nodup) (hsub : ∀ x ∈ vis, x ∈ nodesOf E)
    (hcl : ∀ x ∈ vis, ∀ y ∈ nbrs E x, y ∈ vis)
    (hn_node : n ∈ nodesOf E) (hnvis : n ∉ vis) :
    (bfsFrom E (nodesOf E).length [n] (vis ++ [n])).2.Nodup ∧
      (∀ x ∈ (bfsFrom E (nodesOf E).length [n] (vis ++ [n])).2, x ∈ nodesOf E) ∧
      (∀ x ∈ (bfsFrom E (nodesOf E).length [n] (vis ++ [n])).2,
        ∀ y ∈ nbrs E x, y ∈ (bfsFrom E (nodesOf E).length [n] (vis ++ [n])).2) ∧
      n ∈ (bfsFrom E (nodesOf E).length [n] (vis ++ [n])).2 := by
  have hvn_nd : (vis ++ [n]).Nodup := by
    rw [List.nodup_append]
    exact ⟨hnd, List.nodup_singleton n, by
      intro a ha hb
      rw [List.mem_singleton] at hb
      subst hb
      exact hnvis ha⟩
  have hvn_sub : ∀ x ∈ vis ++ [n], x ∈ nodesOf E := by
    intro x hx
    rcases List.mem_append.mp hx with h | h
    · exact hsub x h
    · rw [List.mem_singleton] at h
      subst h
      exact hn_node
  refine ⟨?_, ?_, ?_, ?_⟩
  · rw [bfsFrom_vis, List.nodup_append]
    obtain ⟨hknd, hkfresh⟩ := bfsFrom_keys_nodup_fresh E (nodesOf E).length [n] (vis ++ [n])
    exact ⟨hvn_nd, hknd, fun a ha hb => (hkfresh a hb) ha⟩
  · intro x hx
    rw [bfsFrom_vis] at hx
    rcases List.mem_append.mp hx with h | h
    · exact hvn_sub x h
    · exact bfsFrom_keys_sub_nodes E _ _ _ x h
  · apply bfsFrom_closed E (nodesOf E).length [n] (vis ++ [n]) hvn_nd hvn_sub
    · intro f hf
      rw [List.mem_singleton] at hf
      subst hf
      exact List.mem_append.mpr (Or.inr (by simp))
    · intro x hx
      rcases List.mem_append.mp hx with h | h
      · exact Or.inr (fun y hy => List.mem_append.mpr (Or.inl (hcl x h y hy)))
      · exact Or.inl h
    · rw [List.length_append, List.length_singleton]
      omega
  · rw [bfsFrom_vis]
    exact List.mem_append.mpr (Or.inl (List.mem_append.mpr (Or.inr (by simp))))

theorem orientGo_root_unique (E : List (Nat × Nat)) :
    ∀ (ns vis : List Nat),
      vis.Nodup → (∀ x ∈ vis, x ∈ nodesOf E) →
      (∀ x ∈ vis, ∀ y ∈ nbrs E x, y ∈ vis) →
      (∀ x ∈ ns, x ∈ nodesOf E) →
      ∀ r1 r2 : Nat,
        r1 ∈ (orientGo E ns vis).2 → r1 ∉ vis →
        r1 ∉ (orientGo E ns vis).1.map Prod.fst →
        r2 ∈ (orientGo E ns vis).2 → r2 ∉ vis →
        r2 ∉ (orientGo E ns vis).1.map Prod.fst →
        Reaches E r1 r2 → r1 = r2 := by
  intro ns
  induction ns with
  | nil =>
      intro vis _ _ _ _ r1 r2 h1 h1v _ _ _ _ _
      simp only [orientGo] at h1
      exact absurd h1 h1v
  | cons n rest ih =>
      intro vis hnd hsub hcl hns r1 r2 h1 h1v h1k h2 h2v h2k hreach
      by_cases hn : vis.contains n
      · simp only [orientGo, hn, if_true] at h1 h1k h2 h2k
        exact ih vis hnd hsub hcl (fun x hx => hns x (List.mem_cons_of_mem _ hx))
          r1 r2 h1 h1v h1k h2 h2v h2k hreach
      · simp only [orientGo, hn, if_false, Bool.false_eq_true] at h1 h1k h2 h2k
        set b := bfsFrom E (nodesOf E).length [n] (vis ++ [n]) with hbdef
        have hnvis : n ∉ vis := fun hc => hn (List.elem_eq_true_of_mem hc)
        obtain ⟨hb_nd, hb_sub, hb_cl, hb_n⟩ :=
          bfsBlock_inv E n vis hnd hsub hcl (hns n (List.mem_cons_self _ _)) hnvis
        have hsplit : ∀ r : Nat, r ∈ (orientGo E rest b.2).2 → r ∉ vis →
            r ∉ (b.1 ++ (orientGo E rest b.2).1).map Prod.fst →
            r = n ∨ (r ∉ b.2 ∧ r ∉ (orientGo E rest b.2).1.map Prod.fst) := by
          intro r hro hrv hrk
          rw [List.map_append] at hrk
          have hrbk : r ∉ b.1.map Prod.fst := fun hc => hrk (List.mem_append.mpr (Or.inl hc))
          have hrok : r ∉ (orientGo E rest b.2).1.map Prod.fst :=
            fun hc => hrk (List.mem_append.mpr (Or.inr hc))
          by_cases hrb : r ∈ b.2
          · left
            rw [hbdef, bfsFrom_vis] at hrb
            rcases List.mem_append.mp hrb with h | h
            · rcases List.mem_append.mp h with h' | h'
              · exact absurd h' hrv
              · exact List.mem_singleton.mp h'
            · exact absurd h (hbdef ▸ hrbk)
          · exact Or.inr ⟨hrb, hrok⟩
        rcases hsplit r1 h1 h1v h1k with rfl | ⟨h1b, h1ok⟩
        · rcases hsplit r2 h2 h2v h2k with rfl | ⟨h2b, _⟩
          · rfl
          · exact absurd (reaches_closed hb_cl hb_n hreach) h2b
        · rcases hsplit r2 h2 h2v h2k with rfl | ⟨h2b, h2ok⟩
          · exact absurd (reaches_closed hb_cl hb_n (reaches_symm hreach)) h1b
          · exact ih b.2 hb_nd hb_sub hb_cl
              (fun x hx => hns x (List.mem_cons_of_mem _ hx))
              r1 r2 h1 h1b h1ok h2 h2b h2ok hreach

theorem lookupParent_some_mem {P : List (Nat × Nat)} {n p : Nat}
    (h : lookupParent P n = some p) : (n, p) ∈ P := by
  unfold lookupParent at h
  rcases hf : P.find? (fun pr => pr.1 == n) with _ | pr
  · rw [hf] at h; cases h
  · rw [hf] at h
    have hmem := List.mem_of_find?_eq_some hf
    have hpred := List.find?_some hf
    rw [beq_iff_eq] at hpred
    simp only [Option.map_some'] at h
    cases h
    have : pr = (n, pr.2) := by
      rw [← hpred]
    rwa [← this]

theorem lookupParent_none_not_key {P : List (Nat × Nat)} {n : Nat}
    (h : lookupParent P n = none) : n ∉ P.map Prod.fst := by
  unfold lookupParent at h
  rcases hf : P.find? (fun pr => pr.1 == n) with _ | pr
  · intro hc
    rcases List.mem_map.mp hc with ⟨q, hq, rfl⟩
    have := List.find?_eq_none.mp hf q hq
    simp at this
  · rw [hf] at h
    cases h

theorem key_lookupParent_some {P : List (Nat × Nat)} {n : Nat}
    (h : n ∈ P.map Prod.fst) : ∃ p, lookupParent P n = some p := by
  unfold lookupParent
  rcases hf : P.find? (fun pr => pr.1 == n) with _ | pr
  · exfalso
    rcases List.mem_map.mp h with ⟨q, hq, rfl⟩
    have := List.find?_eq_none.mp hf q hq
    simp at this
  · exact ⟨pr.2, by rw [hf]; rfl⟩

theorem orientForest_rank (E : List (Nat × Nat)) {pr : Nat × Nat}
    (hpr : pr ∈ orientForest E) :
    posN (finalVis E) pr.2 < posN (finalVis E) pr.1 := by
  obtain ⟨mid, rest2, hsp, hp2, hp1⟩ := orientGo_parent_mid E (nodesOf E) [] pr hpr
  have h1 : posN (finalVis E) pr.2 < mid.length := by
    rw [finalVis, hsp]
    exact posN_append_lt hp2 rest2
  have h2 : mid.length ≤ posN (finalVis E) pr.1 := by
    rw [finalVis, hsp]
    exact posN_append_ge hp1 rest2
  omega

theorem parentIter_rank (E : List (Nat × Nat)) :
    ∀ (k n z : Nat), parentIter (orientForest E) (k + 1) n = some z →
      posN (finalVis E) z < posN (finalVis E) n := by
  intro k
  induction k with
  | zero =>
      intro n z h
      simp only [parentIter] at h
      rcases hl : lookupParent (orientForest E) n with _ | p
      · rw [hl] at h; cases h
      · rw [hl] at h
        simp only [parentIter] at h
        cases h
        simpa using orientForest_rank E (lookupParent_some_mem hl)
  | succ k ih =>
      intro n z h
      rw [show k + 1 + 1 = (k + 1) + 1 from rfl, parentIter] at h
      rcases hl : lookupParent (orientForest E) n with _ | p
      · rw [hl] at h; cases h
      · rw [hl] at h
        have h1 := ih p z h
        have h2 : posN (finalVis E) p < posN (finalVis E) n := by
          simpa using orientForest_rank E (lookupParent_some_mem hl)
        omega

theorem adjRel_symm {E : List (Nat × Nat)} {x y : Nat}
    (h : adjRel E x y) : adjRel E y x := by
  rcases h with h | h
  · exact Or.inr h
  · exact Or.inl h

theorem orientForest_chain_root (E : List (Nat × Nat)) :
    ∀ n ∈ finalVis E, ∃ r, Reaches E n r ∧
      lookupParent (orientForest E) r = none ∧ r ∈ finalVis E := by
  suffices H : ∀ (k : Nat) (n : Nat), posN (finalVis E) n = k → n ∈ finalVis E →
      ∃ r, Reaches E n r ∧ lookupParent (orientForest E) r = none ∧ r ∈ finalVis E by
    intro n hn
    exact H (posN (finalVis E) n) n rfl hn
  intro k
  induction k using Nat.strong_induction_on with
  | _ k ih =>
      intro n hk hn
      rcases hl : lookupParent (orientForest E) n with _ | p
      · exact ⟨n, Relation.ReflTransGen.refl, hl, hn⟩
      · have hpair := lookupParent_some_mem hl
        have hadj : adjRel E p n := by
          have := orientGo_adj E (nodesOf E) [] (n, p) hpair
          exact (mem_nbrs_iff E p n).mp this
        have hpF : p ∈ finalVis E := by
          obtain ⟨mid, rest2, hsp, hp2, _⟩ :=
            orientGo_parent_mid E (nodesOf E) [] (n, p) hpair
          rw [finalVis, hsp]
          exact List.mem_append.mpr (Or.inl hp2)
        have hrank : posN (finalVis E) p < k := by
          rw [← hk]
          exact orientForest_rank E hpair
        obtain ⟨r, hr1, hr2, hr3⟩ := ih _ hrank p rfl hpF
        exact ⟨r, Relation.ReflTransGen.trans
          (Relation.ReflTransGen.single (adjRel_symm hadj)) hr1, hr2, hr3⟩

theorem reaches_mem_nodes {E : List (Nat × Nat)} {n y : Nat}
    (h : Reaches E n y) : y = n ∨ y ∈ nodesOf E := by
  induction h with
  | refl => exact Or.inl rfl
  | @tail b c _ hadj _ =>
      right
      rcases hadj with h' | h'
      · exact mem_nodesOf.mpr ⟨(b, c), h', Or.inr rfl⟩
      · exact mem_nodesOf.mpr ⟨(c, b), h', Or.inl rfl⟩

/-- Forest invariants of the orientation phase, for an arbitrary undirected
edge list (in the pipeline: the post-cycle-removal graph). -/
theorem orientForest_forest (E : List (Nat × Nat)) :
    ((orientForest E).map Prod.fst).Nodup ∧
      (∀ (n k : Nat), parentIter (orientForest E) (k + 1) n = some n → False) ∧
      (∀ n ∈ nodesOf E, ∃! r, Reaches E n r ∧
        lookupParent (orientForest E) r = none) := by
  refine ⟨(orientGo_keys_nodup_fresh E (nodesOf E) []).1, ?_, ?_⟩
  · intro n k h
    have := parentIter_rank E k n n h
    omega
  · intro n hn
    have hnF : n ∈ finalVis E := orientGo_cover E (nodesOf E) [] n hn
    obtain ⟨r, hr1, hr2, hr3⟩ := orientForest_chain_root E n hnF
    refine ⟨r, ⟨hr1, hr2⟩, ?_⟩
    rintro r' ⟨hr'1, hr'2⟩
    have hr'N : r' ∈ nodesOf E := by
      rcases reaches_mem_nodes hr'1 with rfl | h
      · exact hn
      · exact h
    have hr'F : r' ∈ finalVis E := orientGo_cover E (nodesOf E) [] r' hr'N
    exact orientGo_root_unique E (nodesOf E) []
      (List.nodup_nil) (by intro x hx; cases hx) (by intro x hx; cases hx)
      (fun x hx => hx)
      r' r hr'F (by intro h; cases h) (lookupParent_none_not_key hr'2)
      hr3 (by intro h; cases h) (lookupParent_none_not_key hr2)
      (Relation.ReflTransGen.trans (reaches_symm hr'1) hr1)

/-- Claim C3: for every input edge list, the graph returned by the Tree
Finalizer (`edges_to_graph` with `fix_tree=True`) is a forest: every node
has at most one parent (the child column of the oriented edge list has no
duplicates), following parent pointers never returns to the starting node
(acyclicity), and every non-empty connected component of the
post-cycle-removal graph has exactly one root (node without parent). -/
theorem edges_to_graph_forest (E : List (Nat × Nat))
    (find : List (Nat × Nat) → Option (List (Nat × Nat))) :
    ((edges_to_graph find E).map Prod.fst).Nodup ∧
      (∀ (n k : Nat), parentIter (edges_to_graph find E) (k + 1) n = some n → False) ∧
      (∀ n ∈ nodesOf (removeCycles find (gEdges E).length (gEdges E)),
        ∃! r, Reaches (removeCycles find (gEdges E).length (gEdges E)) n r ∧
          lookupParent (edges_to_graph find E) r = none) :=
  orientForest_forest (removeCycles find (gEdges E).length (gEdges E))

theorem uniqRows_perm_of_nodup {l : List (ℤ × ℤ)} (h : l.Nodup) :
    (uniqRows l).Perm l := by
  unfold uniqRows
  have hs := sortBy_perm lexLeRow l
  rw [List.dedup_eq_self.mpr (hs.nodup_iff.mpr h)]
  exact hs

theorem missingParents_nodup (rows : List (ℤ × ℤ)) :
    (missingParents rows).Nodup := by
  unfold missingParents
  exact ((sortBy_perm _ _).nodup_iff).mpr ((List.nodup_dedup _).filter _)

theorem missingParents_fresh {rows : List (ℤ × ℤ)} {m : ℤ}
    (hm : m ∈ missingParents rows) : m ∉ rows.map Prod.fst := by
  unfold missingParents at hm
  rw [mem_sortBy, List.mem_filter] at hm
  intro hc
  have h2 := hm.2
  rw [Bool.not_eq_true', Bool.eq_false_iff] at h2
  exact h2 (List.elem_eq_true_of_mem hc)

/-- Claim C6: serializing a Finalizer forest with `reindex=False` and
reconstructing the child→parent edge list from the rows with
`parent_id ≠ -1` reproduces the Finalizer's oriented edge set exactly
(as a set of oriented edges; `make_swc` may append root rows, but those
carry `parent_id = -1` and are excluded by the reconstruction). -/
theorem make_swc_roundtrip (E : List (Nat × Nat))
    (find : List (Nat × Nat) → Option (List (Nat × Nat))) :
    ∃ rows, make_swc ((edges_to_graph find E).map (fun e => ((e.1 : ℤ), (e.2 : ℤ)))) false true
        = Except.ok rows ∧
      (rows.filter (fun r => !(r.2 == (-1 : ℤ)))).toFinset
        = ((edges_to_graph find E).map (fun e => ((e.1 : ℤ), (e.2 : ℤ)))).toFinset := by
  set F := edges_to_graph find E with hF
  set FZ := F.map (fun e => ((e.1 : ℤ), (e.2 : ℤ))) with hFZ
  have hkeysN : (F.map Prod.fst).Nodup :=
    (orientGo_keys_nodup_fresh (removeCycles find (gEdges E).length (gEdges E))
      (nodesOf (removeCycles find (gEdges E).length (gEdges E))) []).1
  have hFZkeys : (FZ.map Prod.fst).Nodup := by
    have hcomp : FZ.map Prod.fst = (F.map Prod.fst).map (fun n : Nat => (n : ℤ)) := by
      rw [hFZ, List.map_map, List.map_map]
      rfl
    rw [hcomp]
    exact hkeysN.map (fun a b hh => by exact_mod_cast hh)
  have hFZnd : FZ.Nodup := List.Nodup.of_map _ hFZkeys
  have hperm : (uniqRows FZ).Perm FZ := uniqRows_perm_of_nodup hFZnd
  have hpar : ∀ r ∈ uniqRows FZ, (0 : ℤ) ≤ r.2 := by
    intro r hr
    have : r ∈ FZ := hperm.subset hr
    rw [hFZ, List.mem_map] at this
    obtain ⟨e, _, rfl⟩ := this
    exact Int.ofNat_nonneg _
  have hkeys0 : ((uniqRows FZ).map Prod.fst).Nodup :=
    ((hperm.map Prod.fst).nodup_iff).mpr hFZkeys
  -- the raw row list before/after appending root rows
  have hrows : makeSwcRows FZ false = uniqRows FZ ∨
      makeSwcRows FZ false
        = uniqRows FZ ++ (missingParents (uniqRows FZ)).map (fun m => (m, (-1 : ℤ))) := by
    simp only [makeSwcRows, if_false, Bool.false_eq_true]
    by_cases hc : (missingParents (uniqRows FZ)).any (fun m => m != 0)
    · right
      rw [if_pos hc]
    · left
      rw [if_neg hc]
  have hkeys1 : ((makeSwcRows FZ false).map Prod.fst).Nodup := by
    rcases hrows with h | h
    · rw [h]; exact hkeys0
    · rw [h, List.map_append, List.nodup_append]
      refine ⟨hkeys0, ?_, ?_⟩
      · rw [List.map_map]
        have : (Prod.fst ∘ fun m : ℤ => (m, (-1 : ℤ))) = id := rfl
        rw [this, List.map_id]
        exact missingParents_nodup _
      · intro a ha hb
        rw [List.map_map] at hb
        have : (Prod.fst ∘ fun m : ℤ => (m, (-1 : ℤ))) = id := rfl
        rw [this, List.map_id] at hb
        exact (missingParents_fresh hb) ha
  have hfil : (makeSwcRows FZ false).filter (fun r => !(r.2 == (-1 : ℤ)))
      = uniqRows FZ := by
    have hfil0 : (uniqRows FZ).filter (fun r => !(r.2 == (-1 : ℤ))) = uniqRows FZ := by
      rw [List.filter_eq_self]
      intro r hr
      have := hpar r hr
      simp only [Bool.not_eq_true', beq_eq_false_iff_ne, ne_eq]
      omega
    rcases hrows with h | h
    · rw [h, hfil0]
    · rw [h, List.filter_append, hfil0]
      have : ((missingParents (uniqRows FZ)).map (fun m => (m, (-1 : ℤ)))).filter
          (fun r => !(r.2 == (-1 : ℤ))) = [] := by
        rw [List.filter_eq_nil_iff]
        intro a ha
        rw [List.mem_map] at ha
        obtain ⟨m, _, rfl⟩ := ha
        simp
      rw [this, List.append_nil]
  refine ⟨makeSwcRows FZ false, ?_, ?_⟩
  · simp only [make_swc]
    rw [if_neg]
    rintro ⟨-, hn⟩
    exact hn hkeys1
  · rw [hfil]
    ext a
    rw [List.mem_toFinset, List.mem_toFinset]
    exact hperm.mem_iff

/-! ## Quadric Cost Model (skeletonize, lines 84-222) and Radius Estimator

Floating point is modelled by `ℝ`.  The vertex array is a total function
`Nat → ℝ × ℝ × ℝ`.  These definitions embed the initial cost computation;
during the loop they are dead (see the comment on `CState`). -/

noncomputable section Geometry

/-- Line 84: Euclidean length `sqrt(sum((verts[i] - verts[j])**2))`. -/
def dist3 (p q : ℝ × ℝ × ℝ) : ℝ :=
  Real.sqrt ((p.1 - q.1) ^ 2 + (p.2.1 - q.2.1) ^ 2 + (p.2.2 - q.2.2) ^ 2)

/-- Length of an edge of the working edge list. -/
def edge_len (verts : Nat → ℝ × ℝ × ℝ) (e : Nat × Nat) : ℝ :=
  dist3 (verts e.1) (verts e.2)

/-- Lines 200-212: `verts_lengths = (adj + adj.T).sum(axis=1)` where `adj`
holds each edge's length at position `(edges[:,0], edges[:,1])`.  After the
symmetrization `adj + adj.T` (line 203), row `v` sums the lengths of every
edge incident to `v`, whichever slot `v` occupies. -/
def verts_lengths (verts : Nat → ℝ × ℝ × ℝ) (edges : List (Nat × Nat)) (v : Nat) : ℝ :=
  (edges.map (fun e =>
    (if e.1 = v then edge_len verts e else 0)
      + (if e.2 = v then edge_len verts e else 0))).sum

/-- Modelled from the spec (§3 Data Model, claim C8): the
`incident_length_sum` described there, summing only edges stored as
`(v, other)` with `v` in the first slot.  Stated solely for comparison with
the source's `verts_lengths`. -/
def verts_lengths_first_slot (verts : Nat → ℝ × ℝ × ℝ)
    (edges : List (Nat × Nat)) (v : Nat) : ℝ :=
  (edges.map (fun e => if e.1 = v then edge_len verts e else 0)).sum

/-- Lines 108-113: normalized absolute edge direction `a`. -/
def aVec (verts : Nat → ℝ × ℝ × ℝ) (e : Nat × Nat) : ℝ × ℝ × ℝ :=
  (|((verts e.2).1 - (verts e.1).1) / edge_len verts e|,
   |((verts e.2).2.1 - (verts e.1).2.1) / edge_len verts e|,
   |((verts e.2).2.2 - (verts e.1).2.2) / edge_len verts e|)

/-- Line 114: `b = a * edge_co0`. -/
def bVec (verts : Nat → ℝ × ℝ × ℝ) (e : Nat × Nat) : ℝ × ℝ × ℝ :=
  ((aVec verts e).1 * (verts e.1).1,
   (aVec verts e).2.1 * (verts e.1).2.1,
   (aVec verts e).2.2 * (verts e.1).2.2)

/-- Lines 120-123: the 3×4 matrix `K` of an edge. -/
def Kmat (verts : Nat → ℝ × ℝ × ℝ) (e : Nat × Nat) : Fin 3 → Fin 4 → ℝ :=
  ![![0, -(aVec verts e).2.2, (aVec verts e).2.1, -(bVec verts e).1],
    ![(aVec verts e).2.2, 0, -(aVec verts e).1, -(bVec verts e).2.1],
    ![-(aVec verts e).2.1, (aVec verts e).1, 0, -(bVec verts e).2.2]]

/-- Lines 130-135: `K_dot = Kᵀ · K` per edge. -/
def Kdot (verts : Nat → ℝ × ℝ × ℝ) (e : Nat × Nat) : Fin 4 → Fin 4 → ℝ :=
  fun i j => ∑ r : Fin 3, Kmat verts e r i * Kmat verts e r j

/-- Lines 138-153: `Q_array[:, :, v]` sums `K_dot` over every edge incident
to `v`, in either slot. -/
def Q_vertex (verts : Nat → ℝ × ℝ × ℝ) (edges : List (Nat × Nat)) (v : Nat) :
    Fin 4 → Fin 4 → ℝ :=
  fun i j => ((edges.filter (fun e => e.1 == v || e.2 == v)).map
    (fun e => Kdot verts e i j)).sum

/-- Lines 181-185: homogeneous coordinates of the edge's first node, with
homogeneous weight `w = 1`. -/
def pHom (verts : Nat → ℝ × ℝ × ℝ) (e : Nat × Nat) : Fin 4 → ℝ :=
  ![(verts e.1).1, (verts e.1).2.1, (verts e.1).2.2, 1]

/-- Column sum over the first index (`np.einsum('ij,kji->ij', ...)` sums
`Q[k, j, ·]` over `k`). -/
def colSum (Q : Fin 4 → Fin 4 → ℝ) (j : Fin 4) : ℝ := ∑ k : Fin 4, Q k j

/-- Lines 187-195: shape cost of an edge, the sum over columns 0 and 1 of
`p[j] · Σ_k Q[k, j]` for the quadrics of both endpoints. -/
def shape_cost (verts : Nat → ℝ × ℝ × ℝ) (edges : List (Nat × Nat))
    (e : Nat × Nat) : ℝ :=
  pHom verts e 0 * colSum (Q_vertex verts edges e.1) 0
    + pHom verts e 1 * colSum (Q_vertex verts edges e.1) 1
    + pHom verts e 0 * colSum (Q_vertex verts edges e.2) 0
    + pHom verts e 1 * colSum (Q_vertex verts edges e.2) 1

/-- Lines 215-218: sampling cost `length · (verts_lengths[tail] - length)`. -/
def sample_cost (verts : Nat → ℝ × ℝ × ℝ) (edges : List (Nat × Nat))
    (e : Nat × Nat) : ℝ :=
  edge_len verts e * (verts_lengths verts edges e.1 - edge_len verts e)

/-- Line 222: the initial weighted cost
`F_T = shape_cost * shape_weight + sample_cost * sample_weight`. -/
def F_T_init (verts : Nat → ℝ × ℝ × ℝ) (edges : List (Nat × Nat))
    (sw mw : ℝ) (e : Nat × Nat) : ℝ :=
  shape_cost verts edges e * sw + sample_cost verts edges e * mw

/-- Distances from a query point to all mesh vertices, ascending
(`scipy.spatial.cKDTree.query` returns the nearest distances in order). -/
def sortedDists (meshVerts : List (ℝ × ℝ × ℝ)) (c : ℝ × ℝ × ℝ) : List ℝ :=
  sortBy (fun a b => decide (a ≤ b)) (meshVerts.map (fun q => dist3 c q))

/-- Mean of a list of reals (`np.mean`). -/
def meanList (l : List ℝ) : ℝ := l.sum / l.length

/-- `_get_radius_kkn` (lines 615-633): the query uses the literal `k=5`
(line 630) — the parameter `n` is accepted but never used. -/
def get_radius_kkn (coords : List (ℝ × ℝ × ℝ)) (meshVerts : List (ℝ × ℝ × ℝ))
    (n : Nat) : List ℝ :=
  coords.map (fun c => meanList ((sortedDists meshVerts c).take 5))

/-- Modelled from the spec (§4.6 Radius Estimator, claim C10): each node's
radius is the mean distance to its `n` nearest mesh vertices.  Stated solely
for comparison with the source's `get_radius_kkn`. -/
def radius_knn_spec (coords : List (ℝ × ℝ × ℝ)) (meshVerts : List (ℝ × ℝ × ℝ))
    (n : Nat) : List ℝ :=
  coords.map (fun c => meanList ((sortedDists meshVerts c).take n))

end Geometry

theorem dist3_axis (x y : ℝ) (h : y - x ≥ 0) :
    dist3 (x, 0, 0) (y, 0, 0) = y - x := by
  unfold dist3
  rw [show (x - y) ^ 2 + ((0 : ℝ) - 0) ^ 2 + ((0 : ℝ) - 0) ^ 2 = (y - x) ^ 2 by ring]
  exact Real.sqrt_sq h

theorem edge_len_swap (verts : Nat → ℝ × ℝ × ℝ) (e : Nat × Nat) :
    edge_len verts (Prod.swap e) = edge_len verts e := by
  have h1 : (Prod.swap e).1 = e.2 := rfl
  have h2 : (Prod.swap e).2 = e.1 := rfl
  unfold edge_len
  rw [h1, h2]
  unfold dist3
  congr 1
  ring

/-- Claim C8 (amended): the incident length sum is slot-symmetric — flipping
the storage orientation of every edge leaves `verts_lengths` unchanged,
because `adj + adj.T` (line 203) counts an edge for both of its endpoints
regardless of which slot the vertex occupies. -/
theorem verts_lengths_swap (verts : Nat → ℝ × ℝ × ℝ) :
    ∀ (edges : List (Nat × Nat)) (v : Nat),
      verts_lengths verts (edges.map Prod.swap) v = verts_lengths verts edges v := by
  intro edges v
  induction edges with
  | nil => rfl
  | cons e rest ih =>
      unfold verts_lengths at ih ⊢
      simp only [List.map_cons, List.sum_cons]
      rw [ih]
      have hsw : edge_len verts (Prod.swap e) = edge_len verts e := edge_len_swap verts e
      have h1 : (Prod.swap e).1 = e.2 := rfl
      have h2 : (Prod.swap e).2 = e.1 := rfl
      rw [h1, h2, hsw]
      ring

/-- Vertex array for the one-edge counterexample: vertex 0 at the origin,
vertex 1 at distance 1 along the x axis. -/
def verts8 : Nat → ℝ × ℝ × ℝ :=
  fun n => if n = 0 then (0, 0, 0) else if n = 1 then (1, 0, 0) else (0, 0, 0)

/-- Claim C8, counterexample: for the single edge stored as `(0, 1)`, vertex
1 occupies the second slot only, yet its incident length sum is the edge's
length 1; the spec's first-slot-only sum would be 0. -/
theorem verts_lengths_counts_second_slot :
    verts_lengths verts8 [(0, 1)] 1 = 1 ∧
      verts_lengths_first_slot verts8 [(0, 1)] 1 = 0 ∧ (1 : ℝ) ≠ 0 := by
  have hL : edge_len verts8 (0, 1) = 1 := by
    have h0 : verts8 0 = (0, 0, 0) := by norm_num [verts8]
    have h1 : verts8 1 = (1, 0, 0) := by norm_num [verts8]
    unfold edge_len
    rw [show ((0 : Nat), (1 : Nat)).1 = 0 from rfl, show ((0 : Nat), (1 : Nat)).2 = 1 from rfl,
      h0, h1]
    have := dist3_axis 0 1 (by norm_num)
    simpa using this
  refine ⟨?_, ?_, by norm_num⟩
  · simp [verts_lengths, hL]
  · simp [verts_lengths_first_slot]

/-- Vertex array for the degenerate-triangle counterexample: vertices at
x = 0, 3, 4 on the x axis. -/
def verts1 : Nat → ℝ × ℝ × ℝ :=
  fun n => if n = 0 then (0, 0, 0) else if n = 1 then (3, 0, 0) else
    if n = 2 then (4, 0, 0) else (0, 0, 0)

/-- Claim C1 (code bug): with `shape_weight = 0`, `sample_weight = 1`, on
the triangle with vertices at x = 0, 3, 4, edge 2 = (1,2) has weighted cost
3 while edge 0 = (0,1) has weighted cost 12; yet the loop's selection
(line 243 after the active debug line 231 `F_T[:] = 0`) picks edge 0, the
first unflagged index, not a minimizer of the weighted cost. -/
theorem collapse_selection_ignores_costs :
    selectIx ⟨[(0, 1), (0, 2), (1, 2)], [(0, 1, 2)], ∅, ∅⟩ = 0 ∧
      F_T_init verts1 [(0, 1), (0, 2), (1, 2)] 0 1 (1, 2)
        < F_T_init verts1 [(0, 1), (0, 2), (1, 2)] 0 1 (0, 1) := by
  constructor
  · decide
  · have h0 : verts1 0 = (0, 0, 0) := by norm_num [verts1]
    have h1 : verts1 1 = (3, 0, 0) := by norm_num [verts1]
    have h2 : verts1 2 = (4, 0, 0) := by norm_num [verts1]
    have hL01 : edge_len verts1 (0, 1) = 3 := by
      unfold edge_len
      rw [show ((0 : Nat), (1 : Nat)).1 = 0 from rfl, show ((0 : Nat), (1 : Nat)).2 = 1 from rfl,
        h0, h1]
      have := dist3_axis 0 3 (by norm_num)
      simpa using this
    have hL02 : edge_len verts1 (0, 2) = 4 := by
      unfold edge_len
      rw [show ((0 : Nat), (2 : Nat)).1 = 0 from rfl, show ((0 : Nat), (2 : Nat)).2 = 2 from rfl,
        h0, h2]
      have := dist3_axis 0 4 (by norm_num)
      simpa using this
    have hL12 : edge_len verts1 (1, 2) = 1 := by
      unfold edge_len
      rw [show ((1 : Nat), (2 : Nat)).1 = 1 from rfl, show ((1 : Nat), (2 : Nat)).2 = 2 from rfl,
        h1, h2]
      have h := dist3_axis 3 4 (by norm_num)
      norm_num at h
      simpa using h
    have hvl0 : verts_lengths verts1 [(0, 1), (0, 2), (1, 2)] 0 = 7 := by
      simp [verts_lengths, hL01, hL02, hL12]
      norm_num
    have hvl1 : verts_lengths verts1 [(0, 1), (0, 2), (1, 2)] 1 = 4 := by
      simp [verts_lengths, hL01, hL02, hL12]
      norm_num
    have hs12 : sample_cost verts1 [(0, 1), (0, 2), (1, 2)] (1, 2) = 3 := by
      unfold sample_cost
      rw [show ((1 : Nat), (2 : Nat)).1 = 1 from rfl, hL12, hvl1]
      norm_num
    have hs01 : sample_cost verts1 [(0, 1), (0, 2), (1, 2)] (0, 1) = 12 := by
      unfold sample_cost
      rw [show ((0 : Nat), (1 : Nat)).1 = 0 from rfl, hL01, hvl0]
      norm_num
    unfold F_T_init
    rw [hs01, hs12]
    simp only [mul_zero, mul_one, zero_add]
    norm_num

/-- Claim C10 (code bug): with mesh vertices at x = 1..6 and a node at the
origin, the returned radius is the mean of the 5 nearest distances (3) for
*any* requested neighbor count; the spec's estimator with `n = 2` gives
3/2.  Line 630 queries `k=5` regardless of `n`. -/
theorem radius_kkn_ignores_n :
    get_radius_kkn [(0, 0, 0)] [(1, 0, 0), (2, 0, 0), (3, 0, 0), (4, 0, 0), (5, 0, 0), (6, 0, 0)] 2
        = [3] ∧
      radius_knn_spec [(0, 0, 0)] [(1, 0, 0), (2, 0, 0), (3, 0, 0), (4, 0, 0), (5, 0, 0), (6, 0, 0)] 2
        = [3 / 2] ∧
      (3 : ℝ) ≠ 3 / 2 := by
  have hd : ∀ x : ℝ, 0 ≤ x → dist3 (0, 0, 0) (x, 0, 0) = x := by
    intro x hx
    have h := dist3_axis 0 x (by linarith)
    simpa using h
  have hmap : [((1 : ℝ), (0 : ℝ), (0 : ℝ)), (2, 0, 0), (3, 0, 0), (4, 0, 0), (5, 0, 0),
      (6, 0, 0)].map (fun q => dist3 (0, 0, 0) q) = [1, 2, 3, 4, 5, 6] := by
    simp only [List.map_cons, List.map_nil]
    rw [hd 1 (by norm_num), hd 2 (by norm_num), hd 3 (by norm_num), hd 4 (by norm_num),
      hd 5 (by norm_num), hd 6 (by norm_num)]
  have hsort : sortBy (fun a b => decide (a ≤ b)) [(1 : ℝ), 2, 3, 4, 5, 6]
      = [1, 2, 3, 4, 5, 6] := by
    norm_num [sortBy, insertLe, decide_eq_true_eq]
  have hsd : sortedDists [((1 : ℝ), (0 : ℝ), (0 : ℝ)), (2, 0, 0), (3, 0, 0), (4, 0, 0),
      (5, 0, 0), (6, 0, 0)] (0, 0, 0) = [1, 2, 3, 4, 5, 6] := by
    unfold sortedDists
    rw [hmap, hsort]
  refine ⟨?_, ?_, by norm_num⟩
  · unfold get_radius_kkn
    rw [List.map_cons, List.map_nil, hsd]
    norm_num [meanList]
  · unfold radius_knn_spec
    rw [List.map_cons, List.map_nil, hsd]
    norm_num [meanList]
